import Mathlib

/-!
# The character trie of `ext/trie/trie.c`

A shallow embedding of the trie functions of `trie.c` (`trie_init`, `trie_add`,
`trie_exists`, `trie_prefix`, `trie_load`, `trie_strip`, `trie_free`) together
with the properties that the design document states about them.

Conventions of the embedding.

* A C string is a `List Nat` of byte values; it ends at the first `0` byte or at
  the end of the list, whichever comes first (the list carries no terminator).
* A `trie_t *` that is held by a parent is an `Option trie_t` (`none` is `NULL`);
  the tree owned through a non-null pointer is the value `trie_t` itself.
* A run of a C function is a `Run`: it returns, or it is stopped by a failed
  `assert`, or it indexes `chars` outside `0 .. TRIE_SIZE - 1`, which C leaves
  undefined.
* The `int` counters of `trie_load` are integers kept in the range of a 32-bit
  `int` by `wrap_int`: an increment past `INT_MAX` wraps around to `INT_MIN`.
  The indices of `trie_strip` are natural numbers, its texts being taken to be
  shorter than `INT_MAX` bytes.
-/

namespace Trie

/-! ## `trie.h` -/

/-- The constant `#define TRIE_SIZE 30`. -/
abbrev TRIE_SIZE : Nat := 30

/-- The constant `#define TRIE_OFFSET 96`. -/
abbrev TRIE_OFFSET : Nat := 96

/-- The node `struct _trie_t`: thirty child pointers and the one-byte flag `node`. -/
structure trie_t where
  chars : Fin TRIE_SIZE → Option trie_t
  node : Bool

/-- The constant `#define TRIE_SENTINEL 0`. -/
abbrev TRIE_SENTINEL : Fin TRIE_SIZE := 0

/-- How a run of a C function ends. -/
inductive Run (α : Type) where
  | ret (a : α)
  | abort
  | undefined
  deriving DecidableEq

/-- Sequencing of two runs: the second starts from what the first returned. -/
def Run.bind {α β : Type} (r : Run α) (f : α → Run β) : Run β :=
  match r with
  | .ret a => f a
  | .abort => .abort
  | .undefined => .undefined

/-- A memory block all of whose bytes are zero, read as a `trie_t`. -/
def zeroed : trie_t := ⟨fun _ => none, false⟩

/-- The characters `assert(c >= 97 && c < 123)` lets through. -/
def lower (c : Nat) : Prop := 97 ≤ c ∧ c < 123

instance (c : Nat) : Decidable (lower c) := by unfold lower; infer_instance

/-- The index expression `c - TRIE_OFFSET` of `t->chars[c - TRIE_OFFSET]`: a slot
of the array when `TRIE_OFFSET ≤ c < TRIE_OFFSET + TRIE_SIZE`, otherwise an
access outside the array (`none`). For a byte above 127 that holds whether
`char` is signed or not. -/
def slot (c : Nat) : Option (Fin TRIE_SIZE) :=
  if h : TRIE_OFFSET ≤ c ∧ c < TRIE_OFFSET + TRIE_SIZE then some ⟨c - TRIE_OFFSET, by omega⟩
  else none

/-- The assignment `chars[k] = p`. -/
def store (chars : Fin TRIE_SIZE → Option trie_t) (k : Fin TRIE_SIZE) (p : Option trie_t) :
    Fin TRIE_SIZE → Option trie_t :=
  fun j => if j = k then p else chars j

/-! ## `trie.c` -/

/-- Function `trie_init`: `malloc` hands over a block whose contents are `mem`; the
function writes `node = 0` and nothing else. -/
def trie_init (mem : trie_t) : trie_t :=
  { mem with node := false }

/-- The statement pair `t->node = 1; t->chars[TRIE_SENTINEL] = trie_init();`
that ends `trie_add`. -/
def add_end (mem : trie_t) (t : trie_t) : trie_t :=
  ⟨store t.chars TRIE_SENTINEL (some (trie_init mem)), true⟩

/-- Function `trie_add`. The pointer walk `t = t->chars[c - TRIE_OFFSET]` is the recursive
call on the child; what it returns is the tree below `t` after the call. -/
def trie_add (mem : trie_t) (t : trie_t) : List Nat → Run trie_t
  | [] => .ret (add_end mem t)
  | c :: word =>
    if c = 0 then .ret (add_end mem t)
    else if h : lower c then
      let k : Fin TRIE_SIZE := ⟨c - TRIE_OFFSET, by unfold lower at h; show c - 96 < 30; omega⟩
      let child := match t.chars k with
        | none => trie_init mem
        | some ch => ch
      match trie_add mem child word with
      | .ret child1 => .ret ⟨store t.chars k (some child1), true⟩
      | .abort => .abort
      | .undefined => .undefined
    else .abort

/-- Function `trie_exists`: the walk along the word, then the test of the
sentinel slot. A byte whose slot is outside the array is where C leaves the
behaviour undefined. -/
def trie_exists (t : trie_t) : List Nat → Run Int
  | [] => .ret (if (t.chars TRIE_SENTINEL).isSome then 1 else 0)
  | c :: word =>
    if c = 0 then .ret (if (t.chars TRIE_SENTINEL).isSome then 1 else 0)
    else match slot c with
      | none => .undefined
      | some k =>
        match t.chars k with
        | none => .ret 0
        | some ch => trie_exists ch word

/-- Function `trie_prefix`: the same walk, then the `node` flag of the node
reached. -/
def trie_prefix (t : trie_t) : List Nat → Run Int
  | [] => .ret (if t.node then 1 else 0)
  | c :: word =>
    if c = 0 then .ret (if t.node then 1 else 0)
    else match slot c with
      | none => .undefined
      | some k =>
        match t.chars k with
        | none => .ret 0
        | some ch => trie_prefix ch word

/-- The update of the node a cursor points to: `F` applied to the node that the
slots `path` lead to from `t`, the rest of the tree being left as it is. A cursor
always points into the tree; were a link of `path` missing, nothing would be
written. -/
def at_path (F : trie_t → trie_t) (t : trie_t) : List (Fin TRIE_SIZE) → trie_t
  | [] => F t
  | k :: ks =>
    match t.chars k with
    | none => t
    | some ch => ⟨store t.chars k (some (at_path F ch ks)), t.node⟩

/-- The statements
`if (t->chars[k] == NULL) { t->chars[k] = trie_init(); } t->node = 1;`
on the node `t`. -/
def link (mem : trie_t) (k : Fin TRIE_SIZE) (t : trie_t) : trie_t :=
  ⟨match t.chars k with
    | none => store t.chars k (some (trie_init mem))
    | some _ => t.chars, true⟩

/-- The statement `t->chars[TRIE_SENTINEL] = trie_init();` on the node `t`. -/
def set_sentinel (mem : trie_t) (t : trie_t) : trie_t :=
  ⟨store t.chars TRIE_SENTINEL (some (trie_init mem)), t.node⟩

/-- The value a 32-bit `int` holds after an operation whose exact result is `x`:
`x` wrapped around into `-2147483648 .. 2147483647`. -/
def wrap_int (x : Int) : Int := (x + 2147483648) % 4294967296 - 2147483648

/-- The line breaks of `trie_load`: `c == '\n' || c == '\r'`. -/
def is_break (c : Nat) : Bool := c == 10 || c == 13

/-- The variables of `trie_load`. The tree is held through `root`; the cursor
`t` is kept as the slots that lead from `root` to the node it points to, so
`t == root` is `t = []`. The counters `words` and `word_len` are 32-bit `int`s:
each `++` goes through `wrap_int`. -/
structure load_state where
  root : trie_t
  t : List (Fin TRIE_SIZE)
  words : Int
  word_len : Int

/-- The `while ((c = getc(stream)) != EOF)` loop of `trie_load` on the bytes
still to be read. -/
def load_loop (mem : trie_t) : load_state → List Nat → Run load_state
  | s, [] => .ret s
  | s, c :: rest =>
    if is_break c then
      if 0 < s.word_len then
        load_loop mem ⟨at_path (set_sentinel mem) s.root s.t, [], wrap_int (s.words + 1), 0⟩ rest
      else load_loop mem s rest
    else if h : lower c then
      let k : Fin TRIE_SIZE := ⟨c - TRIE_OFFSET, by unfold lower at h; show c - 96 < 30; omega⟩
      load_loop mem
        ⟨at_path (link mem k) s.root s.t, s.t ++ [k], s.words, wrap_int (s.word_len + 1)⟩ rest
    else .abort

/-- The statements of `trie_load` after the loop: the tree, and the value
returned. -/
def load_end (mem : trie_t) (s : load_state) : trie_t × Int :=
  if s.t ≠ [] ∧ 0 < s.word_len then (at_path (set_sentinel mem) s.root s.t, s.words)
  else (s.root, s.words)

/-- Function `trie_load`. The argument `file` is what `fopen` finds: `none` when the
stream cannot be opened, otherwise the bytes `getc` delivers. The result is the
tree below `t` after the call, and the value returned. -/
def trie_load (mem : trie_t) (t : trie_t) (file : Option (List Nat)) : Run (trie_t × Int) :=
  match file with
  | none => .ret (t, -1)
  | some content =>
    match load_loop mem ⟨t, [], 0, 0⟩ content with
    | .ret s => .ret (load_end mem s)
    | .abort => .abort
    | .undefined => .undefined

/-- The separators of `trie_strip`:
`c == ' ' || c == '\n' || c == '\t' || c == '\r'`. -/
def is_sep (c : Nat) : Bool := c == 32 || c == 10 || c == 9 || c == 13

/-- The variables of `trie_strip`. The cursor `t` only reads, so it is the tree
below the node it points to. `dest` is the part `dest[0 .. i)` of the destination
buffer, so the write index `i` is `dest.length`: `dest[i++] = c` appends `c`,
`i = last_break` cuts `dest` back to `last_break` bytes, `last_break = i` takes
the length. What the buffer holds from `i` on is overwritten before the loop
ends, or lies behind the final `0`. -/
structure strip_state where
  t : trie_t
  dest : List Nat
  last_break : Nat
  in_trie : Bool

/-- The `while ((c = dest[i++] = *src++))` loop of `trie_strip` on the bytes of
`src` still to be read; it returns the string left in `dest`. -/
def strip_loop (root : trie_t) : strip_state → List Nat → Run (List Nat)
  | s, [] => .ret s.dest
  | s, c :: src =>
    if c = 0 then .ret s.dest
    else if is_sep c then
      if s.in_trie then
        strip_loop root ⟨root, (s.dest ++ [c]).take s.last_break, s.last_break, true⟩ src
      else
        strip_loop root ⟨root, s.dest ++ [c], (s.dest ++ [c]).length, true⟩ src
    else if !s.in_trie then
      strip_loop root ⟨s.t, s.dest ++ [c], s.last_break, s.in_trie⟩ src
    else
      match slot c with
      | none => .undefined
      | some k =>
        match s.t.chars k with
        | none => strip_loop root ⟨s.t, s.dest ++ [c], s.last_break, false⟩ src
        | some ch => strip_loop root ⟨ch, s.dest ++ [c], s.last_break, true⟩ src

/-- Function `trie_strip` on a non-null `src`: the string it leaves in the destination
(which is `src` itself when `dest` is `NULL`). -/
def trie_strip (t : trie_t) (src : List Nat) : Run (List Nat) :=
  strip_loop t ⟨t, [], 0, true⟩ src

/-- A sequence of `trie_add` calls on the same root, in order. -/
def add_all (mem : trie_t) (t : trie_t) : List (List Nat) → Run trie_t
  | [] => .ret t
  | w :: ws =>
    match trie_add mem t w with
    | .ret t1 => add_all mem t1 ws
    | .abort => .abort
    | .undefined => .undefined

/-- The bytes of a string literal. -/
def str (s : String) : List Nat := s.toList.map Char.toNat

/-! ## Slot paths

The functions above walk the tree by characters. The lemmas are proved on the
slots instead: a lower-case word is the list of the slots of its letters. -/

/-- The slot `c - TRIE_OFFSET` of a letter (reduced into the array for any other
byte, where it is not used). -/
def idx (c : Nat) : Fin TRIE_SIZE := ⟨(c - TRIE_OFFSET) % TRIE_SIZE, Nat.mod_lt _ (by decide)⟩

/-- The slots a word goes through. -/
def path_of (w : List Nat) : List (Fin TRIE_SIZE) := w.map idx

/-- A word of lower-case letters. -/
def lowercase (w : List Nat) : Prop := ∀ c ∈ w, lower c

instance (w : List Nat) : Decidable (lowercase w) := by unfold lowercase; infer_instance

/-- The node a list of slots leads to, if every link is there. -/
def walk (t : trie_t) : List (Fin TRIE_SIZE) → Option trie_t
  | [] => some t
  | k :: ks =>
    match t.chars k with
    | none => none
    | some ch => walk ch ks

/-- The node at the end of the path holds a sentinel child. -/
def has_end (t : trie_t) (p : List (Fin TRIE_SIZE)) : Bool :=
  match walk t p with
  | none => false
  | some n => (n.chars TRIE_SENTINEL).isSome

/-- The node at the end of the path has its `node` flag set. -/
def has_flag (t : trie_t) (p : List (Fin TRIE_SIZE)) : Bool :=
  match walk t p with
  | none => false
  | some n => n.node

/-- What `trie_add` does to the tree, on slots. -/
def ins (mem : trie_t) (t : trie_t) : List (Fin TRIE_SIZE) → trie_t
  | [] => add_end mem t
  | k :: ks =>
    ⟨store t.chars k (some (ins mem (match t.chars k with
        | none => trie_init mem
        | some ch => ch) ks)), true⟩

/-- What a sequence of `trie_add` calls does to the tree, on slots. -/
def ins_all (mem : trie_t) (t : trie_t) : List (List (Fin TRIE_SIZE)) → trie_t
  | [] => t
  | p :: ps => ins_all mem (ins mem t p) ps

/-- What a walk along `q` finds at its end, `false` when a link is missing. -/
def obs (test : trie_t → Bool) (t : trie_t) (q : List (Fin TRIE_SIZE)) : Bool :=
  match walk t q with
  | none => false
  | some n => test n

/-- The words of a dictionary: its maximal non-empty runs of bytes other than
line breaks, in order. The run after the last line break is one of them. -/
def lines (content : List Nat) : List (List Nat) :=
  (content.splitOnP is_break).filter (fun l => l ≠ [])

/-- The words of `cur` followed by `content`, read from the left; `cur` is the
part of the current line already read. -/
def lines_from : List Nat → List Nat → List (List Nat)
  | cur, [] => if cur = [] then [] else [cur]
  | cur, c :: rest =>
    if is_break c then
      if cur = [] then lines_from [] rest else cur :: lines_from [] rest
    else lines_from (cur ++ [c]) rest

/-- A dictionary of lower-case letters and line breaks. -/
def dictionary (content : List Nat) : Prop := ∀ c ∈ content, lower c ∨ is_break c = true

instance (content : List Nat) : Decidable (dictionary content) := by
  unfold dictionary; infer_instance

/-! ## Tokens of a text -/

/-- Every character of `tok` follows an existing child link, starting at `t`. -/
def follows_links (t : trie_t) : List Nat → Bool
  | [] => true
  | c :: cs =>
    match slot c with
    | none => false
    | some k =>
      match t.chars k with
      | none => false
      | some ch => follows_links ch cs

/-- The non-empty tokens of a text: its maximal non-empty runs of characters
other than separators, in order. -/
def tokens (text : List Nat) : List (List Nat) :=
  (text.splitOnP is_sep).filter (fun l => l ≠ [])

/-- The runs of the text that a separator ends, in order; a run may be empty
(at a leading separator, or between two separators next to each other). -/
def terminated (text : List Nat) : List (List Nat) :=
  (text.splitOnP is_sep).dropLast

/-- The run after the last separator of the text (the whole text when it has
no separator); it is empty when the text ends with a separator. -/
def unterminated (text : List Nat) : List Nat :=
  (text.splitOnP is_sep).getLastD []

/-- The runs of the text that a separator ends, each with that separator. -/
def sep_runs : List Nat → List (List Nat × Nat)
  | [] => []
  | c :: cs =>
    if is_sep c then ([], c) :: sep_runs cs
    else (sep_runs cs).modifyHead (fun r => (c :: r.1, r.2))

/-- A text of lower-case letters and separators. -/
def plain_text (text : List Nat) : Prop := ∀ c ∈ text, lower c ∨ is_sep c = true

instance (text : List Nat) : Decidable (plain_text text) := by
  unfold plain_text; infer_instance

/-- What `trie_strip` writes from the start of a token on, `tok` being the part
of the token already read. -/
def strip_from (root : trie_t) : List Nat → List Nat → List Nat
  | tok, [] => tok
  | tok, c :: rest =>
    if is_sep c then
      if follows_links root tok then strip_from root [] rest
      else tok ++ [c] ++ strip_from root [] rest
    else strip_from root (tok ++ [c]) rest

/-! ## Creation and release of nodes -/

mutual
/-- Function `trie_free`, as the number of nodes it releases: the loop over the
slots `0 .. TRIE_SIZE - 1` releases the tree below each child that is there, then
`free(t)` releases the node itself. -/
def trie_free : trie_t → Nat
  | ⟨chars, _⟩ => ((List.finRange TRIE_SIZE).map fun i => free_child (chars i)).sum + 1
/-- The loop body `if (t->chars[i] != NULL) { trie_free(t->chars[i]); }` of
`trie_free`, as the number of nodes it releases. -/
def free_child : Option trie_t → Nat
  | none => 0
  | some t => trie_free t
end

/-- The number of `trie_init` calls that `trie_add(t, word)` makes: one for each
letter whose child is `NULL`, and one for the sentinel at the end of the word,
whether or not the node already has one. -/
def add_inits (mem : trie_t) (t : trie_t) : List Nat → Nat
  | [] => 1
  | c :: word =>
    if c = 0 then 1
    else if h : lower c then
      let k : Fin TRIE_SIZE := ⟨c - TRIE_OFFSET, by unfold lower at h; show c - 96 < 30; omega⟩
      match t.chars k with
      | none => 1 + add_inits mem (trie_init mem) word
      | some ch => add_inits mem ch word
    else 0

/-! ## Properties of every node -/

mutual
/-- The test `P` holds at the node `t` and at every node below it. -/
def all_nodes (P : trie_t → Bool) : trie_t → Bool
  | ⟨chars, node⟩ =>
    P ⟨chars, node⟩ && (List.finRange TRIE_SIZE).all fun i => all_child P (chars i)
/-- The test `P` holds at every node of the tree a child pointer leads to. -/
def all_child (P : trie_t → Bool) : Option trie_t → Bool
  | none => true
  | some t => all_nodes P t
end

/-- The node has no child in the unused slots 27, 28 and 29, and the node in
its sentinel slot, if there is one, has no children and a cleared `node` flag. -/
def sentinel_local (n : trie_t) : Bool :=
  (n.chars 27).isNone && (n.chars 28).isNone && (n.chars 29).isNone &&
    match n.chars TRIE_SENTINEL with
    | none => true
    | some s => !s.node && (List.finRange TRIE_SIZE).all fun k => (s.chars k).isNone

/-- The sentinel invariant, at every node of the tree. -/
def sentinel_inv (t : trie_t) : Bool := all_nodes sentinel_local t

/-- One operation that fills the trie: `trie_add` of a word, or `trie_load` of a
file that can be opened. -/
inductive trie_op where
  | add (word : List Nat)
  | load (content : List Nat)

/-- The operation is given lower-case input. -/
def lower_op : trie_op → Prop
  | .add word => lowercase word
  | .load content => dictionary content

instance (o : trie_op) : Decidable (lower_op o) := by
  cases o <;> unfold lower_op <;> infer_instance

/-- A sequence of `trie_add` and `trie_load` calls on the same root, in order. -/
def run_ops (mem : trie_t) (t : trie_t) : List trie_op → Run trie_t
  | [] => .ret t
  | .add word :: ops =>
    match trie_add mem t word with
    | .ret t1 => run_ops mem t1 ops
    | .abort => .abort
    | .undefined => .undefined
  | .load content :: ops =>
    match trie_load mem t (some content) with
    | .ret r => run_ops mem r.1 ops
    | .abort => .abort
    | .undefined => .undefined

/-! ## `trie_strip` in place -/

/-- The C string at the start of a buffer: its bytes before the first `0`. -/
def c_string (buf : List Nat) : List Nat := buf.takeWhile fun b => b != 0

/-- The variables of `trie_strip` when `dest` is `NULL`, so that `dest = src`:
`buf` is the one buffer, the text followed by its final `0`; `r` is how far `src`
has moved, `i` is the write index. -/
structure in_place_state where
  t : trie_t
  buf : List Nat
  r : Nat
  i : Nat
  last_break : Nat
  in_trie : Bool

/-- One turn of the loop of `trie_strip` on the one buffer: the condition
`(c = dest[i++] = *src++)`, which reads `buf[r]` and writes it to `buf[i]`, then
the loop body. The flag returned tells whether the loop goes on. A read or a
write outside the buffer is undefined. -/
def in_place_step (root : trie_t) (s : in_place_state) : Run (Bool × in_place_state) :=
  match s.buf[s.r]? with
  | none => .undefined
  | some c =>
    if s.i < s.buf.length then
      if c = 0 then .ret (false, ⟨s.t, s.buf.set s.i c, s.r + 1, s.i + 1, s.last_break, s.in_trie⟩)
      else if is_sep c then
        if s.in_trie then
          .ret (true, ⟨root, s.buf.set s.i c, s.r + 1, s.last_break, s.last_break, true⟩)
        else .ret (true, ⟨root, s.buf.set s.i c, s.r + 1, s.i + 1, s.i + 1, true⟩)
      else if !s.in_trie then
        .ret (true, ⟨s.t, s.buf.set s.i c, s.r + 1, s.i + 1, s.last_break, s.in_trie⟩)
      else
        match slot c with
        | none => .undefined
        | some k =>
          match s.t.chars k with
          | none => .ret (true, ⟨s.t, s.buf.set s.i c, s.r + 1, s.i + 1, s.last_break, false⟩)
          | some ch => .ret (true, ⟨ch, s.buf.set s.i c, s.r + 1, s.i + 1, s.last_break, true⟩)
    else .undefined

/-- The loop of `trie_strip` on the one buffer, for at most `n` turns; it
returns the C string left in the buffer. Each turn reads one byte, so with `n`
the number of bytes not yet read, the turn after the last one would read outside
the buffer. -/
def in_place_loop (root : trie_t) : Nat → in_place_state → Run (List Nat)
  | 0, _ => .undefined
  | n + 1, s =>
    match in_place_step root s with
    | .ret (true, s1) => in_place_loop root n s1
    | .ret (false, s1) => .ret (c_string s1.buf)
    | .abort => .abort
    | .undefined => .undefined

/-- The variables as the loop of `trie_strip` finds them after `n` turns, when it
goes on that long. -/
def in_place_iter (root : trie_t) : Nat → in_place_state → Option in_place_state
  | 0, s => some s
  | n + 1, s =>
    match in_place_step root s with
    | .ret (true, s1) => in_place_iter root n s1
    | _ => none

/-- The variables at the start of `trie_strip(t, src, NULL)`. -/
def in_place_start (t : trie_t) (text : List Nat) : in_place_state :=
  ⟨t, text ++ [0], 0, 0, 0, true⟩

/-- Function `trie_strip` with `dest` equal to `NULL`, on a non-null `src`: the
string it leaves in the buffer of `src`. -/
def trie_strip_in_place (t : trie_t) (text : List Nat) : Run (List Nat) :=
  in_place_loop t (text.length + 1) (in_place_start t text)

/-- The variables of the two runs of `trie_strip` agree when `rest` is still to
be read: the buffer holds the destination of the other run in front of the
write index, and the unread text from the read index on. -/
def in_place_rel (s : in_place_state) (a : strip_state) (rest : List Nat) : Prop :=
  s.t = a.t ∧ s.in_trie = a.in_trie ∧ s.last_break = a.last_break ∧
    s.buf.take s.i = a.dest ∧ s.i ≤ s.r ∧ s.buf.drop s.r = rest ++ [0] ∧
    a.last_break ≤ s.i ∧ 0 ∉ a.dest

/-! ## Blocks that are not zero-filled, and a long file -/

/-- A block handed out again by `malloc` in which the bytes of `chars[0]` are not
zero: the pointer read there is not `NULL`. -/
def dirty_first : trie_t := ⟨fun k => if k = TRIE_SENTINEL then some zeroed else none, true⟩

/-- A block handed out again by `malloc` in which the bytes of `chars[27]` are
not zero. -/
def dirty_unused : trie_t := ⟨fun k => if k = 27 then some zeroed else none, true⟩

/-- A block handed out again by `malloc` that still holds the pointers of a
released node: each of the thirty pointers leads to a node whose `node` flag is
set. -/
def dirty_all : trie_t := ⟨fun _ => some ⟨fun _ => none, true⟩, true⟩

/-- The file of `n` lines `a`, each ended by a line feed. -/
def a_lines : Nat → List Nat
  | 0 => []
  | n + 1 => 97 :: 10 :: a_lines n

/-- The word of the slots `p` has been inserted below `t`: every node on the
path has its `node` flag set, and the last one holds the sentinel that
`trie_add` stores. -/
def inserted (mem : trie_t) : trie_t → List (Fin TRIE_SIZE) → Prop
  | t, [] => t.node = true ∧ t.chars TRIE_SENTINEL = some (trie_init mem)
  | t, k :: ks => t.node = true ∧ ∃ ch, t.chars k = some ch ∧ inserted mem ch ks

/-! ## Lemmas -/

theorem opt_cases {α : Type} (o : Option α) : o = none ∨ ∃ a, o = some a := by
  cases o with
  | none => exact Or.inl rfl
  | some a => exact Or.inr ⟨a, rfl⟩

theorem slot_lower {c : Nat} (h : lower c) : slot c = some (idx c) := by
  unfold lower at h
  unfold slot idx
  rw [dif_pos (by constructor <;> simp only [TRIE_OFFSET, TRIE_SIZE] <;> omega)]
  congr 1
  apply Fin.ext
  show c - 96 = (c - 96) % 30
  omega

theorem lower_ne_zero {c : Nat} (h : lower c) : c ≠ 0 := by
  unfold lower at h; omega

theorem idx_ne_sentinel {c : Nat} (h : lower c) : idx c ≠ TRIE_SENTINEL := by
  unfold lower at h
  intro e
  have := congrArg Fin.val e
  simp only [idx, TRIE_OFFSET, TRIE_SIZE] at this
  change (c - 96) % 30 = 0 at this
  omega

theorem idx_inj {c d : Nat} (hc : lower c) (hd : lower d) (e : idx c = idx d) : c = d := by
  unfold lower at hc hd
  have := congrArg Fin.val e
  simp only [idx, TRIE_OFFSET, TRIE_SIZE] at this
  omega

theorem trie_add_lower (mem : trie_t) :
    ∀ (w : List Nat) (t : trie_t), lowercase w → trie_add mem t w = .ret (ins mem t (path_of w))
  | [], t, _ => rfl
  | c :: w, t, h => by
    have hc : lower c := h c (List.mem_cons_self _ _)
    have hw : lowercase w := fun d hd => h d (List.mem_cons_of_mem _ hd)
    have hk : (⟨c - TRIE_OFFSET, by unfold lower at hc; show c - 96 < 30; omega⟩ : Fin TRIE_SIZE)
        = idx c := by
      apply Fin.ext
      unfold lower at hc
      show c - 96 = (c - 96) % 30
      omega
    simp only [trie_add, if_neg (lower_ne_zero hc), dif_pos hc, hk, path_of, List.map_cons, ins]
    rw [trie_add_lower mem w _ hw]
    rfl

theorem trie_exists_lower :
    ∀ (w : List Nat) (t : trie_t), lowercase w →
      trie_exists t w = .ret (if has_end t (path_of w) then 1 else 0)
  | [], t, _ => rfl
  | c :: w, t, h => by
    have hc : lower c := h c (List.mem_cons_self _ _)
    have hw : lowercase w := fun d hd => h d (List.mem_cons_of_mem _ hd)
    simp only [trie_exists, if_neg (lower_ne_zero hc), slot_lower hc, path_of, List.map_cons,
      has_end, walk]
    obtain h1 | ⟨ch, h1⟩ := opt_cases (t.chars (idx c))
    · simp [h1]
    · simp only [h1]
      rw [trie_exists_lower w ch hw]
      rfl

theorem trie_prefix_lower :
    ∀ (w : List Nat) (t : trie_t), lowercase w →
      trie_prefix t w = .ret (if has_flag t (path_of w) then 1 else 0)
  | [], t, _ => rfl
  | c :: w, t, h => by
    have hc : lower c := h c (List.mem_cons_self _ _)
    have hw : lowercase w := fun d hd => h d (List.mem_cons_of_mem _ hd)
    simp only [ trie_prefix, if_neg (lower_ne_zero hc), slot_lower hc, path_of, List.map_cons,
      has_flag, walk]
    obtain h1 | ⟨ch, h1⟩ := opt_cases (t.chars (idx c))
    · simp [h1]
    · simp only [h1]
      rw [trie_prefix_lower w ch hw]
      rfl

theorem add_all_lower (mem : trie_t) :
    ∀ (ws : List (List Nat)) (t : trie_t), (∀ w ∈ ws, lowercase w) →
      add_all mem t ws = .ret (ins_all mem t (ws.map path_of))
  | [], _, _ => rfl
  | w :: ws, t, h => by
    simp only [add_all, trie_add_lower mem w t (h w (List.mem_cons_self _ _)), List.map_cons,
      ins_all]
    exact add_all_lower mem ws _ (fun v hv => h v (List.mem_cons_of_mem _ hv))

/-! ## What a walk sees after an insertion -/

theorem store_same (f : Fin TRIE_SIZE → Option trie_t) (k : Fin TRIE_SIZE) (p : Option trie_t) :
    store f k p k = p := by
  simp [store]

theorem store_other (f : Fin TRIE_SIZE → Option trie_t) {k j : Fin TRIE_SIZE}
    (p : Option trie_t) (h : j ≠ k) : store f k p j = f j := by
  simp [store, h]

theorem has_end_nil (t : trie_t) : has_end t [] = (t.chars TRIE_SENTINEL).isSome := rfl

theorem has_end_cons (t : trie_t) (k : Fin TRIE_SIZE) (ks : List (Fin TRIE_SIZE)) :
    has_end t (k :: ks) = match t.chars k with
      | none => false
      | some ch => has_end ch ks := by
  unfold has_end
  simp only [walk]
  obtain h | ⟨ch, h⟩ := opt_cases (t.chars k) <;> simp [h]

theorem has_flag_nil (t : trie_t) : has_flag t [] = t.node := rfl

theorem has_flag_cons (t : trie_t) (k : Fin TRIE_SIZE) (ks : List (Fin TRIE_SIZE)) :
    has_flag t (k :: ks) = match t.chars k with
      | none => false
      | some ch => has_flag ch ks := by
  unfold has_flag
  simp only [walk]
  obtain h | ⟨ch, h⟩ := opt_cases (t.chars k) <;> simp [h]

theorem walk_zeroed (q : List (Fin TRIE_SIZE)) (h : q ≠ []) : walk (trie_init zeroed) q = none := by
  cases q with
  | nil => exact absurd rfl h
  | cons k ks => rfl

theorem has_end_zeroed (q : List (Fin TRIE_SIZE)) : has_end (trie_init zeroed) q = false := by
  cases q with
  | nil => rfl
  | cons k ks => rfl

theorem has_flag_zeroed (q : List (Fin TRIE_SIZE)) : has_flag (trie_init zeroed) q = false := by
  cases q with
  | nil => rfl
  | cons k ks => rfl

/-- The word just inserted ends on a sentinel, whatever the fresh blocks held. -/
theorem has_end_ins_self (mem : trie_t) :
    ∀ (p : List (Fin TRIE_SIZE)) (t : trie_t), has_end (ins mem t p) p = true
  | [], t => by simp [ins, add_end, has_end_nil, store_same]
  | k :: ks, t => by
    simp only [ins, has_end_cons, store_same]
    exact has_end_ins_self mem ks _

/-- An insertion keeps the sentinels that letter paths lead to. -/
theorem has_end_ins_mono (mem : trie_t) :
    ∀ (p : List (Fin TRIE_SIZE)) (t : trie_t) (q : List (Fin TRIE_SIZE)),
      TRIE_SENTINEL ∉ q → has_end t q = true → has_end (ins mem t p) q = true
  | [], t, [], _, _ => by simp [ins, add_end, has_end_nil, store_same]
  | [], t, j :: js, hq, h => by
    have hj : j ≠ TRIE_SENTINEL := fun e => hq (e ▸ List.mem_cons_self _ _)
    rw [has_end_cons] at h ⊢
    simpa only [ins, add_end, store_other _ _ hj] using h
  | k :: ks, t, [], hq, h => by
    rw [has_end_nil] at h ⊢
    by_cases e : TRIE_SENTINEL = k
    · simp [ins, ← e, store_same]
    · simpa only [ins, store_other _ _ e] using h
  | k :: ks, t, j :: js, hq, h => by
    have hjs : TRIE_SENTINEL ∉ js := fun m => hq (List.mem_cons_of_mem _ m)
    rw [has_end_cons] at h ⊢
    by_cases e : j = k
    · subst e
      simp only [ins, store_same]
      obtain h1 | ⟨ch, h1⟩ := opt_cases (t.chars j)
      · simp [h1] at h
      · simp only [h1] at h ⊢
        exact has_end_ins_mono mem ks ch js hjs h
    · simpa only [ins, store_other _ _ e] using h

/-- With zero-filled fresh blocks, an insertion adds exactly one sentinel among
the letter paths. -/
theorem has_end_ins :
    ∀ (p : List (Fin TRIE_SIZE)) (t : trie_t) (q : List (Fin TRIE_SIZE)),
      TRIE_SENTINEL ∉ p → TRIE_SENTINEL ∉ q →
      (has_end (ins zeroed t p) q = true ↔ has_end t q = true ∨ q = p)
  | [], t, [], _, _ => by simp [ins, add_end, has_end_nil, store_same]
  | [], t, j :: js, _, hq => by
    have hj : j ≠ TRIE_SENTINEL := fun e => hq (e ▸ List.mem_cons_self _ _)
    rw [has_end_cons, has_end_cons]
    simp [ins, add_end, store_other _ _ hj]
  | k :: ks, t, [], hp, _ => by
    have hk : TRIE_SENTINEL ≠ k := fun e => hp (e ▸ List.mem_cons_self _ _)
    rw [has_end_nil, has_end_nil]
    simp [ins, store_other _ _ hk]
  | k :: ks, t, j :: js, hp, hq => by
    have hks : TRIE_SENTINEL ∉ ks := fun m => hp (List.mem_cons_of_mem _ m)
    have hjs : TRIE_SENTINEL ∉ js := fun m => hq (List.mem_cons_of_mem _ m)
    rw [has_end_cons, has_end_cons]
    by_cases e : j = k
    · subst e
      simp only [ins, store_same, List.cons.injEq, true_and]
      rw [has_end_ins ks _ js hks hjs]
      obtain h1 | ⟨ch, h1⟩ := opt_cases (t.chars j)
      · simp [h1, has_end_zeroed]
      · simp [h1]
    · simp [ins, store_other _ _ e, e]

/-- With zero-filled fresh blocks, an insertion sets the flag on the word's own
path and on each of its prefixes, and on no other letter path. -/
theorem has_flag_ins :
    ∀ (p : List (Fin TRIE_SIZE)) (t : trie_t) (q : List (Fin TRIE_SIZE)),
      TRIE_SENTINEL ∉ p → TRIE_SENTINEL ∉ q →
      (has_flag (ins zeroed t p) q = true ↔ has_flag t q = true ∨ q <+: p)
  | [], t, [], _, _ => by simp [ins, add_end, has_flag_nil]
  | [], t, j :: js, _, hq => by
    have hj : j ≠ TRIE_SENTINEL := fun e => hq (e ▸ List.mem_cons_self _ _)
    rw [has_flag_cons, has_flag_cons]
    simp [ins, add_end, store_other _ _ hj]
  | k :: ks, t, [], hp, _ => by
    simp [ins, has_flag_nil]
  | k :: ks, t, j :: js, hp, hq => by
    have hks : TRIE_SENTINEL ∉ ks := fun m => hp (List.mem_cons_of_mem _ m)
    have hjs : TRIE_SENTINEL ∉ js := fun m => hq (List.mem_cons_of_mem _ m)
    rw [has_flag_cons, has_flag_cons, List.cons_prefix_cons]
    by_cases e : j = k
    · subst e
      simp only [ins, store_same, true_and]
      rw [has_flag_ins ks _ js hks hjs]
      obtain h1 | ⟨ch, h1⟩ := opt_cases (t.chars j)
      · simp [h1, has_flag_zeroed]
      · simp [h1]
    · simp [ins, store_other _ _ e, e]

/-! ## Sequences of insertions -/

theorem sentinel_not_mem_path_of {w : List Nat} (h : lowercase w) :
    TRIE_SENTINEL ∉ path_of w := by
  intro m
  obtain ⟨c, hc, e⟩ := List.mem_map.1 m
  exact idx_ne_sentinel (h c hc) e

theorem prefix_path_of :
    ∀ (v w : List Nat), lowercase v → lowercase w → (path_of v <+: path_of w ↔ v <+: w)
  | [], w, _, _ => by simp [path_of]
  | c :: v, [], _, _ => by simp [path_of]
  | c :: v, d :: w, hv, hw => by
    have hc : lower c := hv c (List.mem_cons_self _ _)
    have hd : lower d := hw d (List.mem_cons_self _ _)
    have hv1 : lowercase v := fun x hx => hv x (List.mem_cons_of_mem _ hx)
    have hw1 : lowercase w := fun x hx => hw x (List.mem_cons_of_mem _ hx)
    have ih := prefix_path_of v w hv1 hw1
    simp only [path_of, List.map_cons, List.cons_prefix_cons] at ih ⊢
    rw [ih]
    constructor
    · rintro ⟨e, h⟩
      exact ⟨idx_inj hc hd e, h⟩
    · rintro ⟨e, h⟩
      exact ⟨e ▸ rfl, h⟩

theorem path_of_inj :
    ∀ (v w : List Nat), lowercase v → lowercase w → path_of v = path_of w → v = w
  | [], [], _, _, _ => rfl
  | [], d :: w, _, _, e => by simp [path_of] at e
  | c :: v, [], _, _, e => by simp [path_of] at e
  | c :: v, d :: w, hv, hw, e => by
    have hc : lower c := hv c (List.mem_cons_self _ _)
    have hd : lower d := hw d (List.mem_cons_self _ _)
    have hv1 : lowercase v := fun x hx => hv x (List.mem_cons_of_mem _ hx)
    have hw1 : lowercase w := fun x hx => hw x (List.mem_cons_of_mem _ hx)
    simp only [path_of, List.map_cons, List.cons.injEq] at e
    rw [idx_inj hc hd e.1, path_of_inj v w hv1 hw1 e.2]

theorem path_of_mem {ws : List (List Nat)} {w : List Nat} (hws : ∀ v ∈ ws, lowercase v)
    (hw : lowercase w) : path_of w ∈ ws.map path_of ↔ w ∈ ws := by
  constructor
  · intro m
    obtain ⟨v, hv, e⟩ := List.mem_map.1 m
    rw [← path_of_inj v w (hws v hv) hw e]
    exact hv
  · exact fun m => List.mem_map.2 ⟨w, m, rfl⟩

theorem has_end_ins_all_mono (mem : trie_t) :
    ∀ (ps : List (List (Fin TRIE_SIZE))) (t : trie_t) (q : List (Fin TRIE_SIZE)),
      TRIE_SENTINEL ∉ q → has_end t q = true → has_end (ins_all mem t ps) q = true
  | [], _, _, _, h => h
  | p :: ps, t, q, hq, h =>
    has_end_ins_all_mono mem ps _ q hq (has_end_ins_mono mem p t q hq h)

theorem has_end_ins_all :
    ∀ (ps : List (List (Fin TRIE_SIZE))) (t : trie_t) (q : List (Fin TRIE_SIZE)),
      (∀ p ∈ ps, TRIE_SENTINEL ∉ p) → TRIE_SENTINEL ∉ q →
      (has_end (ins_all zeroed t ps) q = true ↔ has_end t q = true ∨ q ∈ ps)
  | [], _, _, _, _ => by simp [ins_all]
  | p :: ps, t, q, hps, hq => by
    simp only [ins_all]
    rw [has_end_ins_all ps _ q (fun r hr => hps r (List.mem_cons_of_mem _ hr)) hq,
      has_end_ins p t q (hps p (List.mem_cons_self _ _)) hq, List.mem_cons, or_assoc]

theorem has_flag_ins_all :
    ∀ (ps : List (List (Fin TRIE_SIZE))) (t : trie_t) (q : List (Fin TRIE_SIZE)),
      (∀ p ∈ ps, TRIE_SENTINEL ∉ p) → TRIE_SENTINEL ∉ q →
      (has_flag (ins_all zeroed t ps) q = true ↔ has_flag t q = true ∨ ∃ p ∈ ps, q <+: p)
  | [], _, _, _, _ => by simp [ins_all]
  | p :: ps, t, q, hps, hq => by
    simp only [ins_all]
    rw [has_flag_ins_all ps _ q (fun r hr => hps r (List.mem_cons_of_mem _ hr)) hq,
      has_flag_ins p t q (hps p (List.mem_cons_self _ _)) hq, List.exists_mem_cons_iff, or_assoc]

/-! ## What a walk sees after an update through a cursor -/

theorem obs_cons (test : trie_t → Bool) (t : trie_t) (k : Fin TRIE_SIZE)
    (ks : List (Fin TRIE_SIZE)) :
    obs test t (k :: ks) = match t.chars k with
      | none => false
      | some ch => obs test ch ks := by
  unfold obs
  simp only [walk]
  obtain h | ⟨ch, h⟩ := opt_cases (t.chars k) <;> simp [h]

theorem obs_append (test : trie_t → Bool) :
    ∀ (cur : List (Fin TRIE_SIZE)) (t : trie_t) (q : List (Fin TRIE_SIZE)),
      obs test t (cur ++ q) = match walk t cur with
        | none => false
        | some n => obs test n q
  | [], _, _ => rfl
  | c :: cs, t, q => by
    rw [List.cons_append, obs_cons]
    simp only [walk]
    obtain h | ⟨ch, h⟩ := opt_cases (t.chars c)
    · simp [h]
    · simp only [h]
      exact obs_append test cs ch q

theorem obs_at_path (test : trie_t → Bool) (F : trie_t → trie_t)
    (htest : ∀ (n : trie_t) (k : Fin TRIE_SIZE) (p : Option trie_t), k ≠ TRIE_SENTINEL →
      test ⟨store n.chars k p, n.node⟩ = test n) :
    ∀ (cur : List (Fin TRIE_SIZE)) (root : trie_t) (q : List (Fin TRIE_SIZE)),
      TRIE_SENTINEL ∉ cur → (walk root cur).isSome = true →
      obs test (at_path F root cur) q =
        if cur <+: q then
          match walk root cur with
          | none => false
          | some n => obs test (F n) (q.drop cur.length)
        else obs test root q
  | [], root, q, _, _ => by simp [at_path, walk]
  | c :: cs, root, q, hc, hv => by
    have hc0 : c ≠ TRIE_SENTINEL := fun e => hc (e ▸ List.mem_cons_self _ _)
    have hcs : TRIE_SENTINEL ∉ cs := fun m => hc (List.mem_cons_of_mem _ m)
    obtain h1 | ⟨ch, h1⟩ := opt_cases (root.chars c)
    · simp [walk, h1] at hv
    · simp only [walk, h1] at hv ⊢
      cases q with
      | nil => simp [at_path, h1, obs, walk, htest _ _ _ hc0]
      | cons j js =>
        by_cases e : j = c
        · subst e
          simp only [at_path, h1, obs_cons, store_same, List.cons_prefix_cons, true_and,
            List.length_cons, List.drop_succ_cons]
          exact obs_at_path test F htest cs ch js hcs hv
        · simp [at_path, h1, obs_cons, store_other _ _ e, List.cons_prefix_cons, Ne.symm e]

theorem end_test_store (n : trie_t) (k : Fin TRIE_SIZE) (p : Option trie_t)
    (h : k ≠ TRIE_SENTINEL) :
    (fun m : trie_t => (m.chars TRIE_SENTINEL).isSome) ⟨store n.chars k p, n.node⟩
      = (fun m : trie_t => (m.chars TRIE_SENTINEL).isSome) n := by
  simp only [store_other _ _ (Ne.symm h)]

theorem flag_test_store (n : trie_t) (k : Fin TRIE_SIZE) (p : Option trie_t)
    (_ : k ≠ TRIE_SENTINEL) :
    (fun m : trie_t => m.node) ⟨store n.chars k p, n.node⟩ = (fun m : trie_t => m.node) n := rfl

theorem has_end_link {k : Fin TRIE_SIZE} (hk : k ≠ TRIE_SENTINEL) (n : trie_t) :
    ∀ q : List (Fin TRIE_SIZE), has_end (link zeroed k n) q = has_end n q
  | [] => by
    rw [has_end_nil, has_end_nil]
    obtain h | ⟨ch, h⟩ := opt_cases (n.chars k)
    · simp [link, h, store_other _ _ (Ne.symm hk)]
    · simp [link, h]
  | j :: js => by
    rw [has_end_cons, has_end_cons]
    obtain h | ⟨ch, h⟩ := opt_cases (n.chars k)
    · by_cases e : j = k
      · subst e
        simp [link, h, store_same, has_end_zeroed]
      · simp [link, h, store_other _ _ e]
    · simp [link, h]

theorem has_flag_link (k : Fin TRIE_SIZE) (n : trie_t) :
    ∀ q : List (Fin TRIE_SIZE),
      (has_flag (link zeroed k n) q = true ↔ q = [] ∨ has_flag n q = true)
  | [] => by simp [has_flag_nil, link]
  | j :: js => by
    rw [has_flag_cons, has_flag_cons]
    obtain h | ⟨ch, h⟩ := opt_cases (n.chars k)
    · by_cases e : j = k
      · subst e
        simp [link, h, store_same, has_flag_zeroed]
      · simp [link, h, store_other _ _ e]
    · simp [link, h]

theorem has_end_set_sentinel (mem : trie_t) (n : trie_t) :
    ∀ q : List (Fin TRIE_SIZE), TRIE_SENTINEL ∉ q →
      (has_end (set_sentinel mem n) q = true ↔ q = [] ∨ has_end n q = true)
  | [], _ => by simp [has_end_nil, set_sentinel, store_same]
  | j :: js, hq => by
    have hj : j ≠ TRIE_SENTINEL := fun e => hq (e ▸ List.mem_cons_self _ _)
    rw [has_end_cons, has_end_cons]
    simp [set_sentinel, store_other _ _ hj]

theorem has_flag_set_sentinel (mem : trie_t) (n : trie_t) :
    ∀ q : List (Fin TRIE_SIZE), TRIE_SENTINEL ∉ q →
      has_flag (set_sentinel mem n) q = has_flag n q
  | [], _ => rfl
  | j :: js, hq => by
    have hj : j ≠ TRIE_SENTINEL := fun e => hq (e ▸ List.mem_cons_self _ _)
    rw [has_flag_cons, has_flag_cons]
    simp [set_sentinel, store_other _ _ hj]

theorem has_end_at_link {k : Fin TRIE_SIZE} (hk : k ≠ TRIE_SENTINEL) (root : trie_t)
    (cur q : List (Fin TRIE_SIZE)) (hc : TRIE_SENTINEL ∉ cur)
    (hv : (walk root cur).isSome = true) :
    has_end (at_path (link zeroed k) root cur) q = has_end root q := by
  show obs _ (at_path _ root cur) q = obs _ root q
  rw [obs_at_path _ _ end_test_store cur root q hc hv]
  obtain ⟨n, hn⟩ := Option.isSome_iff_exists.1 hv
  split_ifs with hpre
  · obtain ⟨q1, rfl⟩ := hpre
    rw [obs_append, List.drop_left]
    simp only [hn]
    exact has_end_link hk n q1
  · rfl

theorem has_flag_at_link (k : Fin TRIE_SIZE) (root : trie_t)
    (cur q : List (Fin TRIE_SIZE)) (hc : TRIE_SENTINEL ∉ cur)
    (hv : (walk root cur).isSome = true) :
    has_flag (at_path (link zeroed k) root cur) q = true ↔ has_flag root q = true ∨ q = cur := by
  show obs _ (at_path _ root cur) q = true ↔ obs _ root q = true ∨ q = cur
  rw [obs_at_path _ _ flag_test_store cur root q hc hv]
  obtain ⟨n, hn⟩ := Option.isSome_iff_exists.1 hv
  split_ifs with hpre
  · obtain ⟨q1, rfl⟩ := hpre
    rw [obs_append, List.drop_left]
    simp only [hn]
    have := has_flag_link k n q1
    rw [List.append_right_eq_self]
    exact this.trans or_comm
  · constructor
    · exact Or.inl
    · rintro (h | h)
      · exact h
      · exact absurd (h ▸ List.prefix_refl _) hpre

theorem has_end_at_sentinel (mem : trie_t) (root : trie_t)
    (cur q : List (Fin TRIE_SIZE)) (hc : TRIE_SENTINEL ∉ cur) (hq : TRIE_SENTINEL ∉ q)
    (hv : (walk root cur).isSome = true) :
    has_end (at_path (set_sentinel mem) root cur) q = true ↔ has_end root q = true ∨ q = cur := by
  show obs _ (at_path _ root cur) q = true ↔ obs _ root q = true ∨ q = cur
  rw [obs_at_path _ _ end_test_store cur root q hc hv]
  obtain ⟨n, hn⟩ := Option.isSome_iff_exists.1 hv
  split_ifs with hpre
  · obtain ⟨q1, rfl⟩ := hpre
    have hq1 : TRIE_SENTINEL ∉ q1 := fun m => hq (List.mem_append_right _ m)
    rw [obs_append, List.drop_left]
    simp only [hn]
    have := has_end_set_sentinel mem n q1 hq1
    rw [List.append_right_eq_self]
    exact this.trans or_comm
  · constructor
    · exact Or.inl
    · rintro (h | h)
      · exact h
      · exact absurd (h ▸ List.prefix_refl _) hpre

theorem has_flag_at_sentinel (mem : trie_t) (root : trie_t)
    (cur q : List (Fin TRIE_SIZE)) (hc : TRIE_SENTINEL ∉ cur) (hq : TRIE_SENTINEL ∉ q)
    (hv : (walk root cur).isSome = true) :
    has_flag (at_path (set_sentinel mem) root cur) q = has_flag root q := by
  show obs _ (at_path _ root cur) q = obs _ root q
  rw [obs_at_path _ _ flag_test_store cur root q hc hv]
  obtain ⟨n, hn⟩ := Option.isSome_iff_exists.1 hv
  split_ifs with hpre
  · obtain ⟨q1, rfl⟩ := hpre
    have hq1 : TRIE_SENTINEL ∉ q1 := fun m => hq (List.mem_append_right _ m)
    rw [obs_append, List.drop_left]
    simp only [hn]
    exact has_flag_set_sentinel mem n q1 hq1
  · rfl

theorem walk_at_link (mem : trie_t) (k : Fin TRIE_SIZE) :
    ∀ (cur : List (Fin TRIE_SIZE)) (root : trie_t), (walk root cur).isSome = true →
      (walk (at_path (link mem k) root cur) (cur ++ [k])).isSome = true
  | [], root, _ => by
    obtain h | ⟨ch, h⟩ := opt_cases (root.chars k)
    · simp [at_path, walk, link, h, store_same]
    · simp [at_path, walk, link, h]
  | c :: cs, root, hv => by
    obtain h | ⟨ch, h⟩ := opt_cases (root.chars c)
    · simp [walk, h] at hv
    · simp only [walk, h] at hv
      simp only [at_path, h, List.cons_append, walk, store_same]
      exact walk_at_link mem k cs ch hv

/-! ## The loader -/

theorem modifyHead_self {α : Type} (L : List α) : L.modifyHead (fun l => l) = L := by
  cases L <;> rfl

theorem lines_from_eq :
    ∀ (content cur : List Nat), lines_from cur content =
      ((content.splitOnP is_break).modifyHead (fun l => cur ++ l)).filter (fun l => l ≠ [])
  | [], cur => by
    by_cases h : cur = [] <;> simp [lines_from, h]
  | c :: rest, cur => by
    rw [lines_from, List.splitOnP_cons]
    by_cases hb : is_break c = true
    · rw [if_pos hb, if_pos hb, lines_from_eq rest []]
      by_cases h : cur = [] <;> simp [h, modifyHead_self]
    · rw [if_neg hb, if_neg hb, lines_from_eq rest (cur ++ [c]), List.modifyHead_modifyHead]
      congr 2
      funext l
      simp

theorem lines_eq_lines_from (content : List Nat) : lines content = lines_from [] content := by
  rw [lines_from_eq]
  simp [lines, modifyHead_self]

theorem lines_from_extends :
    ∀ (content cur : List Nat), cur ≠ [] → ∃ w ∈ lines_from cur content, cur <+: w
  | [], cur, h => ⟨cur, by simp [lines_from, h], List.prefix_refl _⟩
  | c :: rest, cur, h => by
    rw [lines_from]
    by_cases hb : is_break c = true
    · rw [if_pos hb, if_neg h]
      exact ⟨cur, List.mem_cons_self _ _, List.prefix_refl _⟩
    · rw [if_neg hb]
      obtain ⟨w, hw, hpre⟩ := lines_from_extends rest (cur ++ [c]) (by simp)
      exact ⟨w, hw, (List.prefix_append cur [c]).trans hpre⟩

theorem lower_not_break {c : Nat} (h : lower c) : is_break c = false := by
  unfold lower at h
  unfold is_break
  have h1 : c ≠ 10 := by omega
  have h2 : c ≠ 13 := by omega
  simp [h1, h2]

theorem lowercase_lines_from :
    ∀ (content cur : List Nat), dictionary content → lowercase cur →
      ∀ w ∈ lines_from cur content, lowercase w
  | [], cur, _, hcur, w, hw => by
    by_cases h : cur = []
    · simp [lines_from, h] at hw
    · simp only [lines_from, if_neg h, List.mem_singleton] at hw
      exact hw ▸ hcur
  | c :: rest, cur, hd, hcur, w, hw => by
    have hrest : dictionary rest := fun x hx => hd x (List.mem_cons_of_mem _ hx)
    rw [lines_from] at hw
    by_cases hb : is_break c = true
    · rw [if_pos hb] at hw
      by_cases h : cur = []
      · rw [if_pos h] at hw
        exact lowercase_lines_from rest [] hrest (by intro x hx; cases hx) w hw
      · rw [if_neg h, List.mem_cons] at hw
        rcases hw with rfl | hw
        · exact hcur
        · exact lowercase_lines_from rest [] hrest (by intro x hx; cases hx) w hw
    · rw [if_neg hb] at hw
      have hc : lower c := (hd c (List.mem_cons_self _ _)).resolve_right hb
      refine lowercase_lines_from rest (cur ++ [c]) hrest ?_ w hw
      intro x hx
      rcases List.mem_append.1 hx with h1 | h1
      · exact hcur x h1
      · rw [List.mem_singleton.1 h1]; exact hc

theorem path_of_ne_nil {w : List Nat} (h : w ≠ []) : path_of w ≠ [] := by
  cases w with
  | nil => exact absurd rfl h
  | cons c cs => simp [path_of]

theorem idx_of_lower {c : Nat} (hc : lower c) (hlt : c - TRIE_OFFSET < TRIE_SIZE) :
    (⟨c - TRIE_OFFSET, hlt⟩ : Fin TRIE_SIZE) = idx c := by
  apply Fin.ext
  unfold lower at hc
  show c - 96 = (c - 96) % 30
  omega

theorem wrap_int_id {x : Int} (h0 : 0 ≤ x) (h1 : x < 2147483648) : wrap_int x = x := by
  unfold wrap_int
  omega

theorem wrap_int_wrap (a b : Int) : wrap_int (wrap_int a + b) = wrap_int (a + b) := by
  unfold wrap_int
  omega

/-- The loop of `trie_load`, started in the middle of the line `curw`, on a
dictionary shorter than `INT_MAX` bytes: it ends, and the tree it leaves (after
the closing statements) holds the sentinels and flags it had, those of the lines
still to come, and no other on a letter path. -/
theorem load_loop_sound :
    ∀ (content : List Nat) (s : load_state) (curw : List Nat),
      dictionary content → lowercase curw → s.t = path_of curw →
      (walk s.root s.t).isSome = true → s.word_len = curw.length →
      curw.length + content.length < 2147483648 →
      (∀ q, q <+: s.t → q ≠ s.t → has_flag s.root q = true) →
      ∃ s1, load_loop zeroed s content = .ret s1 ∧
        (∀ q, TRIE_SENTINEL ∉ q → (has_end (load_end zeroed s1).1 q = true ↔
          has_end s.root q = true ∨ q ∈ (lines_from curw content).map path_of)) ∧
        (∀ q, TRIE_SENTINEL ∉ q → (has_flag (load_end zeroed s1).1 q = true ↔
          has_flag s.root q = true ∨
            ∃ w ∈ lines_from curw content, q <+: path_of w ∧ q ≠ path_of w))
  | [], s, curw, _, hcur, ht, hv, hlen, _, hfl => by
    have hs : TRIE_SENTINEL ∉ s.t := ht ▸ sentinel_not_mem_path_of hcur
    by_cases h : curw = []
    · have ht0 : s.t = [] := by rw [ht, h]; rfl
      refine ⟨s, rfl, fun q _ => ?_, fun q _ => ?_⟩ <;> simp [load_end, ht0, lines_from, h]
    · have ht0 : s.t ≠ [] := ht ▸ path_of_ne_nil h
      have hl : 0 < s.word_len := by rw [hlen]; exact_mod_cast List.length_pos.2 h
      refine ⟨s, rfl, fun q hq => ?_, fun q hq => ?_⟩
      · simp only [load_end, if_pos (And.intro ht0 hl), lines_from, if_neg h, List.map_cons,
          List.map_nil, List.mem_singleton]
        rw [has_end_at_sentinel zeroed s.root s.t q hs hq hv, ht]
      · simp only [load_end, if_pos (And.intro ht0 hl), lines_from, if_neg h,
          List.mem_singleton, exists_eq_left]
        rw [has_flag_at_sentinel zeroed s.root s.t q hs hq hv]
        constructor
        · exact Or.inl
        · rintro (h1 | ⟨h1, h2⟩)
          · exact h1
          · exact hfl q (ht ▸ h1) (ht ▸ h2)
  | c :: rest, s, curw, hd, hcur, ht, hv, hlen, hbd, hfl => by
    have hs : TRIE_SENTINEL ∉ s.t := ht ▸ sentinel_not_mem_path_of hcur
    have hrest : dictionary rest := fun x hx => hd x (List.mem_cons_of_mem _ hx)
    rw [List.length_cons] at hbd
    by_cases hb : is_break c = true
    · by_cases h : curw = []
      · have hl : ¬ 0 < s.word_len := by rw [hlen, h]; simp
        obtain ⟨s1, hrun, hE, hF⟩ := load_loop_sound rest s [] hrest (by intro x hx; cases hx)
          (by rw [ht, h]) hv (by rw [hlen, h]) (by rw [List.length_nil]; omega) hfl
        refine ⟨s1, ?_, ?_, ?_⟩
        · rw [load_loop, if_pos hb, if_neg hl]; exact hrun
        · simpa only [lines_from, if_pos hb, h, if_true] using hE
        · simpa only [lines_from, if_pos hb, h, if_true] using hF
      · have hl : 0 < s.word_len := by rw [hlen]; exact_mod_cast List.length_pos.2 h
        obtain ⟨s1, hrun, hE, hF⟩ := load_loop_sound rest
          ⟨at_path (set_sentinel zeroed) s.root s.t, [], wrap_int (s.words + 1), 0⟩ [] hrest
          (by intro x hx; cases hx) rfl rfl rfl (by rw [List.length_nil]; omega)
          (by intro q hq hne; exact absurd (List.prefix_nil.1 hq) hne)
        refine ⟨s1, ?_, fun q hq => ?_, fun q hq => ?_⟩
        · rw [load_loop, if_pos hb, if_pos hl]; exact hrun
        · rw [hE q hq]
          simp only [lines_from, if_pos hb, if_neg h, List.map_cons, List.mem_cons]
          rw [has_end_at_sentinel zeroed s.root s.t q hs hq hv, ht, or_assoc]
        · rw [hF q hq]
          simp only [lines_from, if_pos hb, if_neg h, List.exists_mem_cons_iff]
          rw [has_flag_at_sentinel zeroed s.root s.t q hs hq hv]
          constructor
          · rintro (h1 | h1)
            · exact Or.inl h1
            · exact Or.inr (Or.inr h1)
          · rintro (h1 | ⟨h1, h2⟩ | h1)
            · exact Or.inl h1
            · exact Or.inl (hfl q (ht ▸ h1) (ht ▸ h2))
            · exact Or.inr h1
    · have hc : lower c := (hd c (List.mem_cons_self _ _)).resolve_right hb
      have hk := idx_of_lower hc (by unfold lower at hc; show c - 96 < 30; omega)
      have hcur1 : lowercase (curw ++ [c]) := by
        intro x hx
        rcases List.mem_append.1 hx with h1 | h1
        · exact hcur x h1
        · rw [List.mem_singleton.1 h1]; exact hc
      have ht1 : s.t ++ [idx c] = path_of (curw ++ [c]) := by
        rw [ht]; simp [path_of]
      obtain ⟨s1, hrun, hE, hF⟩ := load_loop_sound rest
        ⟨at_path (link zeroed (idx c)) s.root s.t, s.t ++ [idx c], s.words,
          wrap_int (s.word_len + 1)⟩
        (curw ++ [c]) hrest hcur1 ht1 (walk_at_link zeroed (idx c) s.t s.root hv)
        (by
          show wrap_int (s.word_len + 1) = ((curw ++ [c]).length : Int)
          rw [hlen, wrap_int_id (by omega) (by omega)]
          simp)
        (by simp only [List.length_append, List.length_singleton]; omega)
        (by
          intro q hq hne
          rw [has_flag_at_link (idx c) s.root s.t q hs hv]
          rcases List.prefix_concat_iff.1 hq with h1 | h1
          · exact absurd h1 hne
          · by_cases h2 : q = s.t
            · exact Or.inr h2
            · exact Or.inl (hfl q h1 h2))
      refine ⟨s1, ?_, fun q hq => ?_, fun q hq => ?_⟩
      · rw [load_loop, if_neg hb, dif_pos hc]
        simp only [hk]
        exact hrun
      · rw [hE q hq]
        simp only [lines_from, if_neg hb]
        rw [has_end_at_link (idx_ne_sentinel hc) s.root s.t q hs hv]
      · rw [hF q hq]
        simp only [lines_from, if_neg hb]
        rw [has_flag_at_link (idx c) s.root s.t q hs hv]
        constructor
        · rintro ((h1 | h1) | h1)
          · exact Or.inl h1
          · obtain ⟨w, hw, hpre⟩ := lines_from_extends rest (curw ++ [c]) (by simp)
            refine Or.inr ⟨w, hw, ?_, ?_⟩
            · rw [h1, ht]
              exact ((List.prefix_append curw [c]).trans hpre).map idx
            · intro e
              have h3 := congrArg List.length e
              have h4 := hpre.length_le
              rw [h1, ht] at h3
              simp [path_of] at h3 h4
              omega
          · exact Or.inr h1
        · rintro (h1 | h1)
          · exact Or.inl (Or.inl h1)
          · exact Or.inr h1

/-- The number of line breaks of a content. -/
theorem breaks_cons (c : Nat) (rest : List Nat) :
    ((c :: rest).filter is_break).length =
      (if is_break c = true then 1 else 0) + (rest.filter is_break).length := by
  by_cases h : is_break c = true
  · rw [List.filter_cons_of_pos h, if_pos h, List.length_cons]; omega
  · rw [List.filter_cons_of_neg h, if_neg h]; omega

/-- The counter `words` does not wrap around, and stays non-negative, while the
content holds fewer than `2^31` line breaks. -/
theorem load_loop_words (mem : trie_t) :
    ∀ (content : List Nat) (s s1 : load_state),
      load_loop mem s content = .ret s1 → 0 ≤ s.words →
      s.words + ((content.filter is_break).length : Int) < 2147483648 → 0 ≤ s1.words
  | [], s, s1, h, h0, _ => by
    simp only [load_loop, Run.ret.injEq] at h
    exact h ▸ h0
  | c :: rest, s, s1, h, h0, hb0 => by
    rw [load_loop] at h
    rw [breaks_cons] at hb0
    split_ifs at h with hb hl hc
    · rw [if_pos hb] at hb0
      refine load_loop_words mem rest _ s1 h ?_ ?_
      · show 0 ≤ wrap_int (s.words + 1)
        rw [wrap_int_id (by omega) (by omega)]
        omega
      · show wrap_int (s.words + 1) + _ < 2147483648
        rw [wrap_int_id (by omega) (by omega)]
        omega
    · rw [if_pos hb] at hb0
      exact load_loop_words mem rest _ s1 h h0 (by omega)
    · rw [if_neg hb] at hb0
      exact load_loop_words mem rest _ s1 h h0 (by simpa using hb0)

theorem load_loop_returns (mem : trie_t) :
    ∀ (content : List Nat) (s : load_state), dictionary content →
      ∃ s1, load_loop mem s content = .ret s1
  | [], s, _ => ⟨s, rfl⟩
  | c :: rest, s, hd => by
    have hrest : dictionary rest := fun x hx => hd x (List.mem_cons_of_mem _ hx)
    rw [load_loop]
    by_cases hb : is_break c = true
    · rw [if_pos hb]
      split_ifs
      · exact load_loop_returns mem rest _ hrest
      · exact load_loop_returns mem rest _ hrest
    · have hc : lower c := (hd c (List.mem_cons_self _ _)).resolve_right hb
      rw [if_neg hb, dif_pos hc]
      exact load_loop_returns mem rest _ hrest

theorem load_end_snd (mem : trie_t) (s : load_state) : (load_end mem s).2 = s.words := by
  unfold load_end
  split_ifs <;> rfl

/-- After `trie_load` of a dictionary shorter than `INT_MAX` bytes onto a fresh
root, with zero-filled fresh blocks: the letter paths that end on a sentinel are
the lines, and those with the flag set are the proper prefixes of the lines. -/
theorem trie_load_sound (content : List Nat) (hd : dictionary content)
    (hlen : content.length < 2147483648) :
    ∃ r, trie_load zeroed (trie_init zeroed) (some content) = .ret r ∧
      (∀ w, lowercase w → (has_end r.1 (path_of w) = true ↔ w ∈ lines content)) ∧
      (∀ p, lowercase p → (has_flag r.1 (path_of p) = true ↔
        ∃ v ∈ lines content, p <+: v ∧ p.length < v.length)) := by
  obtain ⟨s1, hrun, hE, hF⟩ := load_loop_sound content ⟨trie_init zeroed, [], 0, 0⟩ [] hd
    (by intro x hx; cases hx) rfl rfl rfl (by rw [List.length_nil]; omega)
    (by intro q hq hne; exact absurd (List.prefix_nil.1 hq) hne)
  have hlow := lowercase_lines_from content [] hd (by intro x hx; cases hx)
  rw [← lines_eq_lines_from] at hE hF hlow
  refine ⟨load_end zeroed s1, ?_, fun w hw => ?_, fun p hp => ?_⟩
  · simp only [trie_load, hrun]
  · rw [hE _ (sentinel_not_mem_path_of hw), path_of_mem hlow hw]
    simp [has_end_zeroed]
  · rw [hF _ (sentinel_not_mem_path_of hp)]
    simp only [has_flag_zeroed, Bool.false_eq_true, false_or]
    constructor
    · rintro ⟨v, hv, h1, h2⟩
      have h3 := (prefix_path_of p v hp (hlow v hv)).1 h1
      refine ⟨v, hv, h3, lt_of_le_of_ne h3.length_le fun e => h2 ?_⟩
      rw [h3.eq_of_length e]
    · rintro ⟨v, hv, h1, h2⟩
      refine ⟨v, hv, (prefix_path_of p v hp (hlow v hv)).2 h1, fun e => ?_⟩
      have := path_of_inj p v hp (hlow v hv) e
      rw [this] at h2
      exact lt_irrefl _ h2

/-! ## The text filter -/

theorem walk_append :
    ∀ (p : List (Fin TRIE_SIZE)) (t : trie_t) (q : List (Fin TRIE_SIZE)),
      walk t (p ++ q) = match walk t p with
        | none => none
        | some n => walk n q
  | [], _, _ => rfl
  | k :: ks, t, q => by
    simp only [List.cons_append, walk]
    obtain h | ⟨ch, h⟩ := opt_cases (t.chars k)
    · simp [h]
    · simp only [h]
      exact walk_append ks ch q

theorem follows_links_eq_walk :
    ∀ (tok : List Nat) (t : trie_t), lowercase tok →
      follows_links t tok = (walk t (path_of tok)).isSome
  | [], _, _ => rfl
  | c :: cs, t, h => by
    have hc : lower c := h c (List.mem_cons_self _ _)
    have hcs : lowercase cs := fun d hd => h d (List.mem_cons_of_mem _ hd)
    simp only [follows_links, slot_lower hc, path_of, List.map_cons, walk]
    obtain h1 | ⟨ch, h1⟩ := opt_cases (t.chars (idx c))
    · simp [h1]
    · simp only [h1]
      exact follows_links_eq_walk cs ch hcs

theorem sep_ne_zero {c : Nat} (h : is_sep c = true) : c ≠ 0 := by
  intro e
  subst e
  exact absurd h (by decide)

theorem lower_not_sep {c : Nat} (h : lower c) : is_sep c = false := by
  unfold lower at h
  unfold is_sep
  have h1 : c ≠ 32 := by omega
  have h2 : c ≠ 10 := by omega
  have h3 : c ≠ 9 := by omega
  have h4 : c ≠ 13 := by omega
  simp [h1, h2, h3, h4]

theorem lowercase_snoc {tok : List Nat} {c : Nat} (htok : lowercase tok) (hc : lower c) :
    lowercase (tok ++ [c]) := by
  intro x hx
  rcases List.mem_append.1 hx with h1 | h1
  · exact htok x h1
  · rw [List.mem_singleton.1 h1]; exact hc

/-- The loop of `trie_strip`, in the middle of the token `tok` with `D` already
settled in `dest`, writes `D` followed by `strip_from root tok text`. -/
theorem strip_loop_eq (root : trie_t) :
    ∀ (text : List Nat) (s : strip_state) (D tok : List Nat),
      plain_text text → lowercase tok → s.dest = D ++ tok → s.last_break = D.length →
      s.in_trie = follows_links root tok →
      (∀ n, walk root (path_of tok) = some n → s.t = n) →
      strip_loop root s text = .ret (D ++ strip_from root tok text)
  | [], s, D, tok, _, _, hdest, _, _, _ => by
    simp [strip_loop, strip_from, hdest]
  | c :: rest, s, D, tok, ht, htok, hdest, hlb, hin, hcur => by
    have hrest : plain_text rest := fun x hx => ht x (List.mem_cons_of_mem _ hx)
    have hnil : lowercase [] := by intro x hx; cases hx
    by_cases hsep : is_sep c = true
    · rw [strip_loop, if_neg (sep_ne_zero hsep), if_pos hsep, strip_from, if_pos hsep]
      by_cases hfl : follows_links root tok = true
      · rw [if_pos (hin.trans hfl), if_pos hfl]
        refine strip_loop_eq root rest _ D [] hrest hnil ?_ hlb rfl ?_
        · show (s.dest ++ [c]).take s.last_break = D ++ []
          rw [hdest, hlb, List.append_assoc, List.take_left, List.append_nil]
        · intro n hn
          simp only [path_of, List.map_nil, walk, Option.some.injEq] at hn
          exact hn
      · rw [if_neg (by rw [hin]; exact hfl), if_neg hfl]
        have := strip_loop_eq root rest ⟨root, s.dest ++ [c], (s.dest ++ [c]).length, true⟩
          (D ++ tok ++ [c]) [] hrest hnil (by simp [hdest]) (by simp [hdest]) rfl
          (by
            intro n hn
            simp only [path_of, List.map_nil, walk, Option.some.injEq] at hn
            exact hn)
        rw [this]
        simp
    · have hc : lower c := (ht c (List.mem_cons_self _ _)).resolve_right hsep
      have htok1 := lowercase_snoc htok hc
      have hpath : path_of (tok ++ [c]) = path_of tok ++ [idx c] := by simp [path_of]
      rw [strip_loop, if_neg (lower_ne_zero hc), if_neg hsep, strip_from, if_neg hsep]
      by_cases hfl : follows_links root tok = true
      · have hin1 : s.in_trie = true := hin.trans hfl
        rw [follows_links_eq_walk tok root htok] at hfl
        obtain ⟨n, hn⟩ := Option.isSome_iff_exists.1 hfl
        have hsn : s.t = n := hcur n hn
        simp only [hin1, Bool.not_true, Bool.false_eq_true, if_false, slot_lower hc]
        obtain h1 | ⟨ch, h1⟩ := opt_cases (n.chars (idx c))
        · simp only [hsn, h1]
          refine strip_loop_eq root rest _ D (tok ++ [c]) hrest htok1 ?_ hlb ?_ ?_
          · simp [hdest]
          · rw [follows_links_eq_walk _ root htok1, hpath, walk_append, hn]
            simp [walk, h1]
          · intro m hm
            rw [hpath, walk_append, hn] at hm
            simp [walk, h1] at hm
        · simp only [hsn, h1]
          refine strip_loop_eq root rest _ D (tok ++ [c]) hrest htok1 ?_ hlb ?_ ?_
          · simp [hdest]
          · rw [follows_links_eq_walk _ root htok1, hpath, walk_append, hn]
            simp [walk, h1]
          · intro m hm
            rw [hpath, walk_append, hn] at hm
            simp only [walk, h1, Option.some.injEq] at hm
            exact hm
      · have hin1 : s.in_trie = false := by
          rw [hin]; exact Bool.eq_false_iff.2 hfl
        have hfl1 : follows_links root (tok ++ [c]) = false := by
          rw [follows_links_eq_walk tok root htok] at hfl
          rw [follows_links_eq_walk _ root htok1, hpath, walk_append]
          obtain h1 | ⟨n, h1⟩ := opt_cases (walk root (path_of tok))
          · simp [h1]
          · simp [h1] at hfl
        simp only [hin1, Bool.not_false, if_true]
        refine strip_loop_eq root rest _ D (tok ++ [c]) hrest htok1 ?_ hlb hfl1.symm ?_
        · simp [hdest]
        · intro m hm
          rw [follows_links_eq_walk _ root htok1, hm] at hfl1
          simp at hfl1

theorem getLastD_of_ne_nil {α : Type} :
    ∀ (S : List α) (a b : α), S ≠ [] → S.getLastD a = S.getLastD b
  | [], _, _, h => absurd rfl h
  | _ :: _, _, _, _ => rfl

theorem snoc_modifyHead (tok : List Nat) (c : Nat) (S : List (List Nat)) :
    (S.modifyHead (List.cons c)).modifyHead (fun l => tok ++ l)
      = S.modifyHead (fun l => (tok ++ [c]) ++ l) := by
  rw [List.modifyHead_modifyHead]
  congr 1
  funext l
  simp

/-- The runs of what `trie_strip` writes: the runs of the input that a separator
ends and that do not follow the links of the trie, then the last run of the
input. -/
theorem splitOnP_strip_from (root : trie_t) :
    ∀ (text tok : List Nat), (∀ x ∈ tok, ¬ is_sep x = true) →
      (strip_from root tok text).splitOnP is_sep =
        (((text.splitOnP is_sep).modifyHead (fun l => tok ++ l)).dropLast.filter
            (fun r => !follows_links root r)) ++
          [((text.splitOnP is_sep).modifyHead (fun l => tok ++ l)).getLastD []]
  | [], tok, htok => by
    simp [strip_from, List.splitOnP_eq_single _ _ htok]
  | c :: rest, tok, htok => by
    have hS := List.splitOnP_ne_nil is_sep rest
    have ih0 := splitOnP_strip_from root rest [] (by simp)
    simp only [List.nil_append, modifyHead_self] at ih0
    rw [strip_from, List.splitOnP_cons]
    by_cases hsep : is_sep c = true
    · rw [if_pos hsep, if_pos hsep, List.modifyHead_cons, List.append_nil,
        List.dropLast_cons_of_ne_nil hS, List.getLastD_cons, getLastD_of_ne_nil _ tok [] hS]
      by_cases hfl : follows_links root tok = true
      · rw [if_pos hfl, ih0, List.filter_cons_of_neg (by simp [hfl])]
      · rw [if_neg hfl, List.append_assoc, List.singleton_append,
          List.splitOnP_first _ _ htok c hsep, ih0, List.filter_cons_of_pos (by simp [hfl])]
        rfl
    · rw [if_neg hsep, if_neg hsep, snoc_modifyHead]
      refine splitOnP_strip_from root rest (tok ++ [c]) ?_
      intro x hx
      rcases List.mem_append.1 hx with h1 | h1
      · exact htok x h1
      · rw [List.mem_singleton.1 h1]; exact hsep

/-- The last run of the input is the end of what `trie_strip` writes. -/
theorem strip_from_suffix (root : trie_t) :
    ∀ (text tok : List Nat),
      ((text.splitOnP is_sep).modifyHead (fun l => tok ++ l)).getLastD [] <:+
        strip_from root tok text
  | [], tok => by simp [strip_from]
  | c :: rest, tok => by
    have hS := List.splitOnP_ne_nil is_sep rest
    have ih0 := strip_from_suffix root rest []
    simp only [List.nil_append, modifyHead_self] at ih0
    rw [strip_from, List.splitOnP_cons]
    by_cases hsep : is_sep c = true
    · rw [if_pos hsep, if_pos hsep, List.modifyHead_cons, List.getLastD_cons,
        getLastD_of_ne_nil _ _ [] hS]
      split_ifs
      · exact ih0
      · exact ih0.trans (List.suffix_append _ _)
    · rw [if_neg hsep, if_neg hsep, snoc_modifyHead]
      exact strip_from_suffix root rest (tok ++ [c])

/-- A text that does not end with a separator has a non-empty last run. -/
theorem last_run_ne_nil :
    ∀ (text tok : List Nat),
      (text = [] ∧ tok ≠ []) ∨ (∃ c, text.getLast? = some c ∧ is_sep c = false) →
      ((text.splitOnP is_sep).modifyHead (fun l => tok ++ l)).getLastD [] ≠ []
  | [], tok, h => by
    rcases h with ⟨_, h⟩ | ⟨c, h, _⟩
    · simpa using h
    · simp at h
  | c :: rest, tok, h => by
    have hS := List.splitOnP_ne_nil is_sep rest
    have hlast : ∃ d, (c :: rest).getLast? = some d ∧ is_sep d = false := by
      rcases h with ⟨h, _⟩ | h
      · cases h
      · exact h
    obtain ⟨d, hd, hdsep⟩ := hlast
    rw [List.splitOnP_cons]
    by_cases hsep : is_sep c = true
    · rw [if_pos hsep, List.modifyHead_cons, List.getLastD_cons, getLastD_of_ne_nil _ _ [] hS]
      have ih := last_run_ne_nil rest []
      simp only [List.nil_append, modifyHead_self] at ih
      apply ih
      right
      cases rest with
      | nil =>
        simp only [List.getLast?_singleton, Option.some.injEq] at hd
        rw [hd, hdsep] at hsep
        cases hsep
      | cons e es =>
        rw [List.getLast?_cons_cons] at hd
        exact ⟨d, hd, hdsep⟩
    · rw [if_neg hsep, snoc_modifyHead]
      apply last_run_ne_nil rest (tok ++ [c])
      cases rest with
      | nil => exact Or.inl ⟨rfl, by simp⟩
      | cons e es =>
        rw [List.getLast?_cons_cons] at hd
        exact Or.inr ⟨d, hd, hdsep⟩

theorem snoc_modifyHead_pair (tok : List Nat) (c : Nat) (R : List (List Nat × Nat)) :
    (R.modifyHead (fun r => (c :: r.1, r.2))).modifyHead (fun r => (tok ++ r.1, r.2))
      = R.modifyHead (fun r => ((tok ++ [c]) ++ r.1, r.2)) := by
  rw [List.modifyHead_modifyHead]
  congr 1
  funext r
  simp

theorem modifyHead_pair_nil (R : List (List Nat × Nat)) :
    R.modifyHead (fun r => (([] : List Nat) ++ r.1, r.2)) = R := by
  cases R <;> rfl

/-- The separators that `trie_strip` writes are those that end a run which does
not follow the links of the trie. -/
theorem filter_sep_strip_from (root : trie_t) :
    ∀ (text tok : List Nat), (∀ x ∈ tok, ¬ is_sep x = true) →
      (strip_from root tok text).filter is_sep =
        (((sep_runs text).modifyHead (fun r => (tok ++ r.1, r.2))).filter
          (fun r => !follows_links root r.1)).map Prod.snd
  | [], tok, htok => by
    simpa [strip_from, sep_runs, List.filter_eq_nil_iff] using htok
  | c :: rest, tok, htok => by
    have ih0 := filter_sep_strip_from root rest [] (by simp)
    rw [modifyHead_pair_nil] at ih0
    have htok0 : tok.filter is_sep = [] := List.filter_eq_nil_iff.2 htok
    rw [strip_from, sep_runs]
    by_cases hsep : is_sep c = true
    · rw [if_pos hsep, if_pos hsep, List.modifyHead_cons]
      by_cases hfl : follows_links root tok = true
      · rw [if_pos hfl, ih0, List.filter_cons_of_neg (by simp [hfl])]
      · rw [if_neg hfl, List.filter_cons_of_pos (by simp [hfl]), List.filter_append,
          List.filter_append, htok0, ih0]
        simp [hsep]
    · rw [if_neg hsep, if_neg hsep, snoc_modifyHead_pair]
      refine filter_sep_strip_from root rest (tok ++ [c]) ?_
      intro x hx
      rcases List.mem_append.1 hx with h1 | h1
      · exact htok x h1
      · rw [List.mem_singleton.1 h1]; exact hsep

/-- When no run ended by a separator follows the links of the trie,
`trie_strip` writes the text as it is. -/
theorem strip_from_unchanged (root : trie_t) :
    ∀ (text tok : List Nat),
      (∀ r ∈ (sep_runs text).modifyHead (fun r => (tok ++ r.1, r.2)),
        follows_links root r.1 = false) →
      strip_from root tok text = tok ++ text
  | [], tok, _ => by simp [strip_from]
  | c :: rest, tok, h => by
    rw [strip_from]
    rw [sep_runs] at h
    by_cases hsep : is_sep c = true
    · rw [if_pos hsep, List.modifyHead_cons] at h
      have hfl : follows_links root tok = false := by
        simpa using h _ (List.mem_cons_self _ _)
      have ih := strip_from_unchanged root rest [] (by
        rw [modifyHead_pair_nil]
        exact fun r hr => h r (List.mem_cons_of_mem _ hr))
      rw [if_pos hsep, if_neg (by simp [hfl]), ih]
      simp
    · rw [if_neg hsep, snoc_modifyHead_pair] at h
      rw [if_neg hsep, strip_from_unchanged root rest (tok ++ [c]) h]
      simp

theorem dropLast_modifyHead {α : Type} (f : α → α) :
    ∀ S : List α, (S.modifyHead f).dropLast = S.dropLast.modifyHead f
  | [] => rfl
  | [_] => rfl
  | _ :: _ :: _ => rfl

theorem map_fst_modifyHead (c : Nat) :
    ∀ R : List (List Nat × Nat),
      (R.modifyHead (fun r => (c :: r.1, r.2))).map Prod.fst
        = (R.map Prod.fst).modifyHead (List.cons c)
  | [] => rfl
  | _ :: _ => rfl

/-- The runs listed by `sep_runs` are the runs that a separator ends. -/
theorem sep_runs_fst : ∀ text : List Nat, (sep_runs text).map Prod.fst = terminated text
  | [] => rfl
  | c :: rest => by
    have hS := List.splitOnP_ne_nil is_sep rest
    have ih := sep_runs_fst rest
    unfold terminated at ih ⊢
    rw [sep_runs, List.splitOnP_cons]
    by_cases hsep : is_sep c = true
    · rw [if_pos hsep, if_pos hsep, List.dropLast_cons_of_ne_nil hS, List.map_cons, ih]
    · rw [if_neg hsep, if_neg hsep, map_fst_modifyHead, ih, dropLast_modifyHead]

/-- On a text of lower-case letters and separators `trie_strip` returns
`strip_from t [] text`. -/
theorem trie_strip_eq (t : trie_t) (text : List Nat) (ht : plain_text text) :
    trie_strip t text = .ret (strip_from t [] text) := by
  have := strip_loop_eq t text ⟨t, [], 0, true⟩ [] [] ht (by intro x hx; cases hx) rfl rfl rfl
    (by
      intro n hn
      simp only [path_of, List.map_nil, walk, Option.some.injEq] at hn
      exact hn)
  simpa [trie_strip] using this

/-! ## Running the text filter again -/

theorem mem_strip_from (root : trie_t) :
    ∀ (text tok : List Nat) (c : Nat), c ∈ strip_from root tok text → c ∈ tok ∨ c ∈ text
  | [], tok, c, h => Or.inl (by simpa [strip_from] using h)
  | d :: rest, tok, c, h => by
    rw [strip_from] at h
    by_cases hsep : is_sep d = true
    · rw [if_pos hsep] at h
      by_cases hfl : follows_links root tok = true
      · rw [if_pos hfl] at h
        rcases mem_strip_from root rest [] c h with h1 | h1
        · cases h1
        · exact Or.inr (List.mem_cons_of_mem _ h1)
      · rw [if_neg hfl] at h
        rcases List.mem_append.1 h with h1 | h1
        · rcases List.mem_append.1 h1 with h2 | h2
          · exact Or.inl h2
          · rw [List.mem_singleton.1 h2]
            exact Or.inr (List.mem_cons_self _ _)
        · rcases mem_strip_from root rest [] c h1 with h2 | h2
          · cases h2
          · exact Or.inr (List.mem_cons_of_mem _ h2)
    · rw [if_neg hsep] at h
      rcases mem_strip_from root rest (tok ++ [d]) c h with h1 | h1
      · rcases List.mem_append.1 h1 with h2 | h2
        · exact Or.inl h2
        · rw [List.mem_singleton.1 h2]
          exact Or.inr (List.mem_cons_self _ _)
      · exact Or.inr (List.mem_cons_of_mem _ h1)

theorem plain_text_strip_from (root : trie_t) (text : List Nat) (ht : plain_text text) :
    plain_text (strip_from root [] text) := by
  intro c hc
  rcases mem_strip_from root text [] c hc with h | h
  · cases h
  · exact ht c h

/-- In what `trie_strip` writes, no run ended by a separator follows the links
of the trie. -/
theorem sep_runs_strip_from (root : trie_t) (text : List Nat) :
    ∀ r ∈ sep_runs (strip_from root [] text), follows_links root r.1 = false := by
  intro r hr
  have h := splitOnP_strip_from root text [] (by simp)
  simp only [List.nil_append, modifyHead_self] at h
  have hmem : r.1 ∈ terminated (strip_from root [] text) := by
    rw [← sep_runs_fst]
    exact List.mem_map.2 ⟨r, hr, rfl⟩
  rw [terminated, h, List.dropLast_concat] at hmem
  have := (List.mem_filter.1 hmem).2
  simpa using this

/-! ## Blank lines -/

theorem load_loop_append (mem : trie_t) :
    ∀ (a b : List Nat) (s : load_state),
      load_loop mem s (a ++ b) = (load_loop mem s a).bind fun s1 => load_loop mem s1 b
  | [], _, _ => rfl
  | c :: a, b, s => by
    rw [List.cons_append, load_loop, load_loop]
    split_ifs
    · exact load_loop_append mem a b _
    · exact load_loop_append mem a b _
    · exact load_loop_append mem a b _
    · rfl

/-- Line breaks met with no letter read on the current line change nothing. -/
theorem load_loop_breaks (mem : trie_t) :
    ∀ (bs rest : List Nat) (s : load_state), (∀ x ∈ bs, is_break x = true) →
      ¬ 0 < s.word_len → load_loop mem s (bs ++ rest) = load_loop mem s rest
  | [], _, _, _, _ => rfl
  | b :: bs, rest, s, hbs, hs => by
    rw [List.cons_append, load_loop, if_pos (hbs b (List.mem_cons_self _ _)), if_neg hs]
    exact load_loop_breaks mem bs rest s (fun x hx => hbs x (List.mem_cons_of_mem _ hx)) hs

/-- A run of line breaks does what its first line break does. -/
theorem load_loop_break_run (mem : trie_t) (b : Nat) (bs rest : List Nat) (s : load_state)
    (hb : is_break b = true) (hbs : ∀ x ∈ bs, is_break x = true) :
    load_loop mem s (b :: bs ++ rest) = load_loop mem s (b :: rest) := by
  rw [List.cons_append, load_loop, load_loop, if_pos hb]
  split_ifs with h
  · exact load_loop_breaks mem bs rest _ hbs (by show ¬ (0 : Int) < 0; decide)
  · exact load_loop_breaks mem bs rest _ hbs h

theorem load_loop_break_swap (mem : trie_t) (b c : Nat) (rest : List Nat) (s : load_state)
    (hb : is_break b = true) (hc : is_break c = true) :
    load_loop mem s (b :: rest) = load_loop mem s (c :: rest) := by
  rw [load_loop, load_loop, if_pos hb, if_pos hc]

theorem dictionary_append {a b : List Nat} (ha : dictionary a) (hb : dictionary b) :
    dictionary (a ++ b) := by
  intro x hx
  rcases List.mem_append.1 hx with h | h
  · exact ha x h
  · exact hb x h

theorem dictionary_breaks {bs : List Nat} (h : ∀ x ∈ bs, is_break x = true) : dictionary bs :=
  fun x hx => Or.inr (h x hx)

theorem trie_load_returns (mem t : trie_t) (content : List Nat) (hd : dictionary content) :
    ∃ r, trie_load mem t (some content) = .ret r := by
  obtain ⟨s1, hs1⟩ := load_loop_returns mem content ⟨t, [], 0, 0⟩ hd
  exact ⟨load_end mem s1, by simp only [trie_load, hs1]⟩

/-! ## Invariants of the nodes -/

theorem all_nodes_iff (P : trie_t → Bool) (t : trie_t) :
    all_nodes P t = true ↔
      P t = true ∧ ∀ k ch, t.chars k = some ch → all_nodes P ch = true := by
  cases t with
  | mk chars node =>
    rw [all_nodes]
    simp only [Bool.and_eq_true, List.all_eq_true, List.mem_finRange, true_implies]
    constructor
    · rintro ⟨h1, h2⟩
      refine ⟨h1, fun k ch hk => ?_⟩
      have := h2 k
      rw [hk, all_child] at this
      exact this
    · rintro ⟨h1, h2⟩
      refine ⟨h1, fun k => ?_⟩
      obtain h | ⟨ch, h⟩ := opt_cases (chars k)
      · rw [h, all_child]
      · rw [h, all_child]
        exact h2 k ch h

/-- The slots of the letters: `1 .. 26`. -/
theorem idx_letter {c : Nat} (h : lower c) : idx c ≠ TRIE_SENTINEL ∧ (idx c).val < 27 := by
  refine ⟨idx_ne_sentinel h, ?_⟩
  unfold lower at h
  show (c - 96) % 30 < 27
  omega

theorem path_of_letters {w : List Nat} (h : lowercase w) :
    ∀ k ∈ path_of w, k ≠ TRIE_SENTINEL ∧ k.val < 27 := by
  intro k hk
  obtain ⟨c, hc, e⟩ := List.mem_map.1 hk
  exact e ▸ idx_letter (h c hc)

theorem all_nodes_zeroed (P : trie_t → Bool) (h : P (trie_init zeroed) = true) :
    all_nodes P (trie_init zeroed) = true := by
  rw [all_nodes_iff]
  refine ⟨h, fun k ch hk => ?_⟩
  cases hk

/-- An insertion keeps a property of every node that fresh nodes have and that
the two kinds of writes of `trie_add` keep. -/
theorem all_nodes_ins (P : trie_t → Bool) (hfresh : P (trie_init zeroed) = true)
    (hstep : ∀ (n : trie_t) (k : Fin TRIE_SIZE) (ch : trie_t), P n = true →
      k ≠ TRIE_SENTINEL → k.val < 27 → P ⟨store n.chars k (some ch), true⟩ = true)
    (hend : ∀ n : trie_t, P n = true → P (add_end zeroed n) = true) :
    ∀ (p : List (Fin TRIE_SIZE)) (t : trie_t), (∀ k ∈ p, k ≠ TRIE_SENTINEL ∧ k.val < 27) →
      all_nodes P t = true → all_nodes P (ins zeroed t p) = true
  | [], t, _, ht => by
    rw [all_nodes_iff] at ht ⊢
    refine ⟨hend t ht.1, fun j ch hj => ?_⟩
    simp only [ins, add_end] at hj
    by_cases e : j = TRIE_SENTINEL
    · rw [e, store_same, Option.some.injEq] at hj
      exact hj ▸ all_nodes_zeroed P hfresh
    · rw [store_other _ _ e] at hj
      exact ht.2 j ch hj
  | k :: ks, t, hp, ht => by
    have hk := hp k (List.mem_cons_self _ _)
    have hks : ∀ j ∈ ks, j ≠ TRIE_SENTINEL ∧ j.val < 27 :=
      fun j hj => hp j (List.mem_cons_of_mem _ hj)
    have ht1 := (all_nodes_iff P t).1 ht
    rw [all_nodes_iff]
    refine ⟨hstep t k _ ht1.1 hk.1 hk.2, fun j ch hj => ?_⟩
    simp only [ins] at hj
    by_cases e : j = k
    · rw [e, store_same, Option.some.injEq] at hj
      rw [← hj]
      apply all_nodes_ins P hfresh hstep hend ks _ hks
      obtain h1 | ⟨c1, h1⟩ := opt_cases (t.chars k)
      · simp only [h1]
        exact all_nodes_zeroed P hfresh
      · simp only [h1]
        exact ht1.2 k c1 h1
    · rw [store_other _ _ e] at hj
      exact ht1.2 j ch hj

theorem all_nodes_ins_all (P : trie_t → Bool) (hfresh : P (trie_init zeroed) = true)
    (hstep : ∀ (n : trie_t) (k : Fin TRIE_SIZE) (ch : trie_t), P n = true →
      k ≠ TRIE_SENTINEL → k.val < 27 → P ⟨store n.chars k (some ch), true⟩ = true)
    (hend : ∀ n : trie_t, P n = true → P (add_end zeroed n) = true) :
    ∀ (ps : List (List (Fin TRIE_SIZE))) (t : trie_t),
      (∀ p ∈ ps, ∀ k ∈ p, k ≠ TRIE_SENTINEL ∧ k.val < 27) →
      all_nodes P t = true → all_nodes P (ins_all zeroed t ps) = true
  | [], _, _, ht => ht
  | p :: ps, t, hps, ht =>
    all_nodes_ins_all P hfresh hstep hend ps _ (fun q hq => hps q (List.mem_cons_of_mem _ hq))
      (all_nodes_ins P hfresh hstep hend p t (hps p (List.mem_cons_self _ _)) ht)

theorem sentinel_local_fresh : sentinel_local (trie_init zeroed) = true := by decide

theorem sentinel_local_store (n : trie_t) (k : Fin TRIE_SIZE) (p : Option trie_t) (b : Bool)
    (h : sentinel_local n = true) (hk0 : k ≠ TRIE_SENTINEL) (hk : k.val < 27) :
    sentinel_local ⟨store n.chars k p, b⟩ = true := by
  have h27 : (27 : Fin TRIE_SIZE) ≠ k := by
    intro e; rw [← e] at hk; exact absurd hk (by decide)
  have h28 : (28 : Fin TRIE_SIZE) ≠ k := by
    intro e; rw [← e] at hk; exact absurd hk (by decide)
  have h29 : (29 : Fin TRIE_SIZE) ≠ k := by
    intro e; rw [← e] at hk; exact absurd hk (by decide)
  unfold sentinel_local at h ⊢
  simp only [store_other _ _ h27, store_other _ _ h28, store_other _ _ h29,
    store_other _ _ (Ne.symm hk0)]
  exact h

theorem sentinel_local_set (n : trie_t) (b : Bool) (h : sentinel_local n = true) :
    sentinel_local ⟨store n.chars TRIE_SENTINEL (some (trie_init zeroed)), b⟩ = true := by
  unfold sentinel_local at h ⊢
  simp only [Bool.and_eq_true] at h
  have e27 : store n.chars TRIE_SENTINEL (some (trie_init zeroed)) 27 = n.chars 27 :=
    store_other _ _ (by decide)
  have e28 : store n.chars TRIE_SENTINEL (some (trie_init zeroed)) 28 = n.chars 28 :=
    store_other _ _ (by decide)
  have e29 : store n.chars TRIE_SENTINEL (some (trie_init zeroed)) 29 = n.chars 29 :=
    store_other _ _ (by decide)
  simp only [e27, e28, e29, store_same, h.1.1.1, h.1.1.2, h.1.2, Bool.true_and]
  decide

theorem sentinel_inv_ins (p : List (Fin TRIE_SIZE)) (t : trie_t)
    (hp : ∀ k ∈ p, k ≠ TRIE_SENTINEL ∧ k.val < 27) (ht : sentinel_inv t = true) :
    sentinel_inv (ins zeroed t p) = true :=
  all_nodes_ins sentinel_local sentinel_local_fresh
    (fun n k ch hn hk0 hk => sentinel_local_store n k (some ch) true hn hk0 hk)
    (fun n hn => sentinel_local_set n true hn) p t hp ht

theorem store_self (f : Fin TRIE_SIZE → Option trie_t) (k : Fin TRIE_SIZE) (ch : trie_t)
    (h : f k = some ch) : store f k (some ch) = f := by
  funext j
  by_cases e : j = k
  · rw [e, store_same, h]
  · rw [store_other _ _ e]

/-- An update through a cursor on letter slots keeps a property of every node
that the update of the node under the cursor keeps. -/
theorem all_nodes_at_path (P : trie_t → Bool) (F : trie_t → trie_t)
    (hkeep : ∀ (n : trie_t) (k : Fin TRIE_SIZE) (ch : trie_t), P n = true →
      k ≠ TRIE_SENTINEL → k.val < 27 → P ⟨store n.chars k (some ch), n.node⟩ = true)
    (hF : ∀ n : trie_t, all_nodes P n = true → all_nodes P (F n) = true) :
    ∀ (cur : List (Fin TRIE_SIZE)) (t : trie_t),
      (∀ k ∈ cur, k ≠ TRIE_SENTINEL ∧ k.val < 27) →
      all_nodes P t = true → all_nodes P (at_path F t cur) = true
  | [], t, _, ht => hF t ht
  | k :: ks, t, hc, ht => by
    have hk := hc k (List.mem_cons_self _ _)
    have hks : ∀ j ∈ ks, j ≠ TRIE_SENTINEL ∧ j.val < 27 :=
      fun j hj => hc j (List.mem_cons_of_mem _ hj)
    have ht1 := (all_nodes_iff P t).1 ht
    obtain h1 | ⟨c1, h1⟩ := opt_cases (t.chars k)
    · simp only [at_path, h1]
      exact ht
    · simp only [at_path, h1]
      rw [all_nodes_iff]
      refine ⟨hkeep t k _ ht1.1 hk.1 hk.2, fun j ch hj => ?_⟩
      simp only at hj
      by_cases e : j = k
      · rw [e, store_same, Option.some.injEq] at hj
        rw [← hj]
        exact all_nodes_at_path P F hkeep hF ks c1 hks (ht1.2 k c1 h1)
      · rw [store_other _ _ e] at hj
        exact ht1.2 j ch hj

theorem sentinel_local_flag (chars : Fin TRIE_SIZE → Option trie_t) (a b : Bool) :
    sentinel_local ⟨chars, a⟩ = sentinel_local ⟨chars, b⟩ := rfl

theorem sentinel_inv_link {k : Fin TRIE_SIZE} (hk0 : k ≠ TRIE_SENTINEL) (hk : k.val < 27)
    (n : trie_t) (hn : all_nodes sentinel_local n = true) :
    all_nodes sentinel_local (link zeroed k n) = true := by
  have hn1 := (all_nodes_iff _ n).1 hn
  rw [all_nodes_iff]
  obtain h1 | ⟨c1, h1⟩ := opt_cases (n.chars k)
  · simp only [link, h1]
    refine ⟨sentinel_local_store n k _ true hn1.1 hk0 hk, fun j ch hj => ?_⟩
    by_cases e : j = k
    · rw [e, store_same, Option.some.injEq] at hj
      exact hj ▸ all_nodes_zeroed _ sentinel_local_fresh
    · rw [store_other _ _ e] at hj
      exact hn1.2 j ch hj
  · simp only [link, h1]
    refine ⟨?_, fun j ch hj => hn1.2 j ch hj⟩
    rw [sentinel_local_flag n.chars true n.node]
    exact hn1.1

theorem sentinel_inv_set (n : trie_t) (hn : all_nodes sentinel_local n = true) :
    all_nodes sentinel_local (set_sentinel zeroed n) = true := by
  have hn1 := (all_nodes_iff _ n).1 hn
  rw [all_nodes_iff]
  refine ⟨sentinel_local_set n n.node hn1.1, fun j ch hj => ?_⟩
  simp only [set_sentinel] at hj
  by_cases e : j = TRIE_SENTINEL
  · rw [e, store_same, Option.some.injEq] at hj
    exact hj ▸ all_nodes_zeroed _ sentinel_local_fresh
  · rw [store_other _ _ e] at hj
    exact hn1.2 j ch hj

theorem sentinel_keep (n : trie_t) (k : Fin TRIE_SIZE) (ch : trie_t)
    (h : sentinel_local n = true) (hk0 : k ≠ TRIE_SENTINEL) (hk : k.val < 27) :
    sentinel_local ⟨store n.chars k (some ch), n.node⟩ = true :=
  sentinel_local_store n k (some ch) n.node h hk0 hk

/-- The loop of `trie_load` on a dictionary ends and keeps the sentinel
invariant; the cursor stays on letter slots. -/
theorem load_loop_inv :
    ∀ (content : List Nat) (s : load_state), dictionary content →
      sentinel_inv s.root = true → (∀ k ∈ s.t, k ≠ TRIE_SENTINEL ∧ k.val < 27) →
      ∃ s1, load_loop zeroed s content = .ret s1 ∧ sentinel_inv s1.root = true ∧
        ∀ k ∈ s1.t, k ≠ TRIE_SENTINEL ∧ k.val < 27
  | [], s, _, hs, ht => ⟨s, rfl, hs, ht⟩
  | c :: rest, s, hd, hs, ht => by
    have hrest : dictionary rest := fun x hx => hd x (List.mem_cons_of_mem _ hx)
    rw [load_loop]
    by_cases hb : is_break c = true
    · rw [if_pos hb]
      split_ifs
      · exact load_loop_inv rest _ hrest
          (all_nodes_at_path _ _ sentinel_keep sentinel_inv_set s.t s.root ht hs)
          (by intro k hk; cases hk)
      · exact load_loop_inv rest s hrest hs ht
    · have hc : lower c := (hd c (List.mem_cons_self _ _)).resolve_right hb
      have hk := idx_of_lower hc (by unfold lower at hc; show c - 96 < 30; omega)
      have hl := idx_letter hc
      rw [if_neg hb, dif_pos hc]
      simp only [hk]
      refine load_loop_inv rest _ hrest
        (all_nodes_at_path _ _ sentinel_keep (sentinel_inv_link hl.1 hl.2) s.t s.root ht hs) ?_
      intro k hk1
      rcases List.mem_append.1 hk1 with h1 | h1
      · exact ht k h1
      · rw [List.mem_singleton.1 h1]; exact hl

theorem trie_load_inv (t : trie_t) (content : List Nat) (hd : dictionary content)
    (ht : sentinel_inv t = true) :
    ∃ r, trie_load zeroed t (some content) = .ret r ∧ sentinel_inv r.1 = true := by
  obtain ⟨s1, hrun, hs1, ht1⟩ := load_loop_inv content ⟨t, [], 0, 0⟩ hd ht
    (by intro k hk; cases hk)
  refine ⟨load_end zeroed s1, by simp only [trie_load, hrun], ?_⟩
  unfold load_end
  split_ifs
  · exact all_nodes_at_path _ _ sentinel_keep sentinel_inv_set s1.t s1.root ht1 hs1
  · exact hs1

theorem run_ops_inv :
    ∀ (ops : List trie_op) (t : trie_t), (∀ o ∈ ops, lower_op o) → sentinel_inv t = true →
      ∃ t1, run_ops zeroed t ops = .ret t1 ∧ sentinel_inv t1 = true
  | [], t, _, ht => ⟨t, rfl, ht⟩
  | .add word :: ops, t, hops, ht => by
    have hw : lowercase word := hops (.add word) (List.mem_cons_self _ _)
    simp only [run_ops, trie_add_lower zeroed word t hw]
    exact run_ops_inv ops _ (fun o ho => hops o (List.mem_cons_of_mem _ ho))
      (sentinel_inv_ins _ t (path_of_letters hw) ht)
  | .load content :: ops, t, hops, ht => by
    have hd : dictionary content := hops (.load content) (List.mem_cons_self _ _)
    obtain ⟨r, hr, hinv⟩ := trie_load_inv t content hd ht
    simp only [run_ops, hr]
    exact run_ops_inv ops _ (fun o ho => hops o (List.mem_cons_of_mem _ ho)) hinv

/-! ## The text filter in place -/

theorem write_facts (buf dest rest : List Nat) (c i r : Nat) (hi : i ≤ r)
    (htake : buf.take i = dest) (hdrop : buf.drop r = c :: rest) :
    buf[r]? = some c ∧ i < buf.length ∧ dest.length = i ∧
      (buf.set i c).take (i + 1) = dest ++ [c] ∧ (buf.set i c).drop (r + 1) = rest ∧
      ∀ lb, lb ≤ i → (buf.set i c).take lb = (dest ++ [c]).take lb := by
  have hr : r < buf.length := by
    by_contra h
    rw [List.drop_eq_nil_of_le (Nat.le_of_not_lt h)] at hdrop
    cases hdrop
  have hlt : i < buf.length := Nat.lt_of_le_of_lt hi hr
  have hlen : dest.length = i := by
    rw [← htake, List.length_take]
    exact Nat.min_eq_left (Nat.le_of_lt hlt)
  have hread : buf[r]? = some c := by
    have := List.getElem?_drop buf r 0
    rw [hdrop] at this
    simpa using this.symm
  have h1 : (buf.set i c).take (i + 1) = dest ++ [c] := by
    rw [List.set_eq_take_append_cons_drop, if_pos hlt, htake,
      List.take_append_eq_append_take, hlen, List.take_of_length_le (by omega)]
    simp
  have h2 : (buf.set i c).drop (r + 1) = rest := by
    rw [List.drop_set_of_lt c buf (Nat.lt_succ_of_le hi)]
    show List.drop (r + 1) buf = rest
    rw [← List.drop_drop, hdrop]
    rfl
  refine ⟨hread, hlt, hlen, h1, h2, fun lb hlb => ?_⟩
  rw [← h1, List.take_take, Nat.min_eq_left (Nat.le_succ_of_le hlb)]

theorem c_string_write (buf dest : List Nat) (i : Nat) (hlt : i < buf.length)
    (htake : buf.take i = dest) (h0 : 0 ∉ dest) : c_string (buf.set i 0) = dest := by
  rw [List.set_eq_take_append_cons_drop, if_pos hlt, htake, c_string, List.takeWhile_append]
  have hall : ∀ b ∈ dest, (b != 0) = true := by
    intro b hb
    have : b ≠ 0 := fun e => h0 (e ▸ hb)
    simpa using this
  have hw : dest.takeWhile (fun b => b != 0) = dest := List.takeWhile_eq_self_iff.2 hall
  rw [hw]
  simp

theorem not_mem_take_snoc {dest : List Nat} {c : Nat} (h0 : 0 ∉ dest) (hc : c ≠ 0) (lb : Nat) :
    0 ∉ (dest ++ [c]).take lb := by
  intro h
  rcases List.mem_append.1 (List.mem_of_mem_take h) with h1 | h1
  · exact h0 h1
  · exact hc (List.mem_singleton.1 h1).symm

theorem not_mem_snoc {dest : List Nat} {c : Nat} (h0 : 0 ∉ dest) (hc : c ≠ 0) :
    0 ∉ dest ++ [c] := by
  intro h
  rcases List.mem_append.1 h with h1 | h1
  · exact h0 h1
  · exact hc (List.mem_singleton.1 h1).symm

/-- The run of `trie_strip` on the one buffer and the run into a destination of
its own end the same way, from variables that agree. -/
theorem in_place_sim (root : trie_t) :
    ∀ (rest : List Nat) (s : in_place_state) (a : strip_state), in_place_rel s a rest →
      in_place_loop root (rest.length + 1) s = strip_loop root a rest
  | [], s, a, h => by
    obtain ⟨st, buf, r, i, lb, it⟩ := s
    obtain ⟨at1, dest, alb, ait⟩ := a
    obtain ⟨_, _, _, htake, hi, hdrop, _, h0⟩ := h
    simp only at htake hi hdrop h0
    obtain ⟨hread, hlt, _, _, _, _⟩ := write_facts buf dest [] 0 i r hi htake hdrop
    simp only [List.length_nil, Nat.zero_add, in_place_loop, in_place_step, hread, if_pos hlt,
      if_true, strip_loop]
    rw [c_string_write buf dest i hlt htake h0]
  | c :: rest, s, a, h => by
    obtain ⟨st, buf, r, i, lb, it⟩ := s
    obtain ⟨at1, dest, alb, ait⟩ := a
    obtain ⟨e1, e2, e3, htake, hi, hdrop, hlb, h0⟩ := h
    simp only at e1 e2 e3 htake hi hdrop hlb h0
    subst e1 e2 e3
    rw [List.cons_append] at hdrop
    obtain ⟨hread, hlt, hlen, hw1, hw2, hw3⟩ :=
      write_facts buf dest (rest ++ [0]) c i r hi htake hdrop
    rw [List.length_cons, in_place_loop, strip_loop]
    simp only [in_place_step, hread, if_pos hlt]
    by_cases hc : c = 0
    · simp only [hc, if_true]
      rw [c_string_write buf dest i hlt htake h0]
    · simp only [if_neg hc]
      by_cases hsep : is_sep c = true
      · simp only [if_pos hsep]
        by_cases hin : it = true
        · simp only [if_pos hin]
          exact in_place_sim root rest _ _
            ⟨rfl, rfl, rfl, hw3 lb hlb, Nat.le_succ_of_le (Nat.le_trans hlb hi), hw2,
              Nat.le_refl _, not_mem_take_snoc h0 hc lb⟩
        · simp only [if_neg hin]
          exact in_place_sim root rest _ _
            ⟨rfl, rfl, by simp [hlen], hw1, Nat.succ_le_succ hi, hw2,
              by simp [hlen], not_mem_snoc h0 hc⟩
      · simp only [if_neg hsep]
        by_cases hin : (!it) = true
        · simp only [if_pos hin]
          exact in_place_sim root rest _ _
            ⟨rfl, rfl, rfl, hw1, Nat.succ_le_succ hi, hw2, Nat.le_succ_of_le hlb,
              not_mem_snoc h0 hc⟩
        · simp only [if_neg hin]
          obtain h1 | ⟨k, h1⟩ := opt_cases (slot c)
          · simp only [h1]
          · simp only [h1]
            obtain h2 | ⟨ch, h2⟩ := opt_cases (st.chars k)
            · simp only [h2]
              exact in_place_sim root rest _ _
                ⟨rfl, rfl, rfl, hw1, Nat.succ_le_succ hi, hw2, Nat.le_succ_of_le hlb,
                  not_mem_snoc h0 hc⟩
            · simp only [h2]
              exact in_place_sim root rest _ _
                ⟨rfl, rfl, rfl, hw1, Nat.succ_le_succ hi, hw2, Nat.le_succ_of_le hlb,
                  not_mem_snoc h0 hc⟩

theorem in_place_rel_start (t : trie_t) (text : List Nat) :
    in_place_rel (in_place_start t text) ⟨t, [], 0, true⟩ text :=
  ⟨rfl, rfl, rfl, rfl, Nat.le_refl _, rfl, Nat.le_refl _, by simp⟩

/-- A turn of the loop keeps the write index at or behind the read index. -/
theorem in_place_step_le (root : trie_t) (s s1 : in_place_state) (b : Bool)
    (h : in_place_step root s = .ret (b, s1)) (hi : s.i ≤ s.r) (hlb : s.last_break ≤ s.i) :
    s1.r = s.r + 1 ∧ s1.i ≤ s1.r ∧ s1.last_break ≤ s1.i := by
  obtain ⟨st, buf, r, i, lb, it⟩ := s
  simp only at hi hlb
  unfold in_place_step at h
  simp only at h
  obtain h0 | ⟨c, h0⟩ := opt_cases (buf[r]?)
  · simp only [h0] at h
    cases h
  · simp only [h0] at h
    by_cases hlt : i < buf.length
    · simp only [if_pos hlt] at h
      by_cases hc : c = 0
      · simp only [if_pos hc, Run.ret.injEq, Prod.mk.injEq] at h
        obtain ⟨_, rfl⟩ := h
        dsimp only
        omega
      · simp only [if_neg hc] at h
        by_cases hsep : is_sep c = true
        · simp only [if_pos hsep] at h
          by_cases hin : it = true
          · simp only [if_pos hin, Run.ret.injEq, Prod.mk.injEq] at h
            obtain ⟨_, rfl⟩ := h
            dsimp only
            omega
          · simp only [if_neg hin, Run.ret.injEq, Prod.mk.injEq] at h
            obtain ⟨_, rfl⟩ := h
            dsimp only
            omega
        · simp only [if_neg hsep] at h
          by_cases hin : (!it) = true
          · simp only [if_pos hin, Run.ret.injEq, Prod.mk.injEq] at h
            obtain ⟨_, rfl⟩ := h
            dsimp only
            omega
          · simp only [if_neg hin] at h
            obtain h1 | ⟨k, h1⟩ := opt_cases (slot c)
            · simp only [h1] at h
              cases h
            · simp only [h1] at h
              obtain h2 | ⟨ch, h2⟩ := opt_cases (st.chars k)
              · simp only [h2, Run.ret.injEq, Prod.mk.injEq] at h
                obtain ⟨_, rfl⟩ := h
                dsimp only
                omega
              · simp only [h2, Run.ret.injEq, Prod.mk.injEq] at h
                obtain ⟨_, rfl⟩ := h
                dsimp only
                omega
    · simp only [if_neg hlt] at h
      cases h

theorem in_place_iter_le (root : trie_t) :
    ∀ (n : Nat) (s s1 : in_place_state), in_place_iter root n s = some s1 →
      s.i ≤ s.r → s.last_break ≤ s.i → s1.r = s.r + n ∧ s1.i ≤ s1.r
  | 0, s, s1, h, hi, _ => by
    simp only [in_place_iter, Option.some.injEq] at h
    subst h
    exact ⟨rfl, hi⟩
  | n + 1, s, s1, h, hi, hlb => by
    rw [in_place_iter] at h
    cases hs : in_place_step root s with
    | ret p =>
      obtain ⟨b, s2⟩ := p
      rw [hs] at h
      cases b with
      | false => cases h
      | true =>
        simp only at h
        obtain ⟨h1, h2, h3⟩ := in_place_step_le root s s2 true hs hi hlb
        obtain ⟨h4, h5⟩ := in_place_iter_le root n s2 s1 h h2 h3
        exact ⟨by omega, h5⟩
    | abort => rw [hs] at h; cases h
    | undefined => rw [hs] at h; cases h

/-- What `trie_strip` writes is no longer than what it has in `dest` and what
it still reads. -/
theorem strip_loop_length (root : trie_t) :
    ∀ (text : List Nat) (s : strip_state) (out : List Nat),
      strip_loop root s text = .ret out → s.last_break ≤ s.dest.length →
      out.length ≤ s.dest.length + text.length
  | [], s, out, h, _ => by
    simp only [strip_loop, Run.ret.injEq] at h
    simp [← h]
  | c :: rest, s, out, h, hlb => by
    rw [strip_loop] at h
    split_ifs at h with h1 h2 h3 h4
    · simp only [Run.ret.injEq] at h
      simp only [← h, List.length_cons]
      omega
    · have := strip_loop_length root rest _ out h (by simp; omega)
      simp only [List.length_take, List.length_append, List.length_cons,
        List.length_nil] at this ⊢
      omega
    · have := strip_loop_length root rest _ out h (Nat.le_refl _)
      simp only [List.length_append, List.length_cons, List.length_nil] at this ⊢
      omega
    · have := strip_loop_length root rest _ out h (by simp; omega)
      simp only [List.length_append, List.length_cons, List.length_nil] at this ⊢
      omega
    · split at h
      · cases h
      · split at h
        · have := strip_loop_length root rest _ out h (by simp; omega)
          simp only [List.length_append, List.length_cons, List.length_nil] at this ⊢
          omega
        · have := strip_loop_length root rest _ out h (by simp; omega)
          simp only [List.length_append, List.length_cons, List.length_nil] at this ⊢
          omega

/-! ## The sentinel slot of the root -/

theorem at_path_cons_slot (F : trie_t → trie_t) (t : trie_t) (k : Fin TRIE_SIZE)
    (ks : List (Fin TRIE_SIZE)) (hk : k ≠ TRIE_SENTINEL) :
    (at_path F t (k :: ks)).chars TRIE_SENTINEL = t.chars TRIE_SENTINEL := by
  obtain h1 | ⟨ch, h1⟩ := opt_cases (t.chars k)
  · simp only [at_path, h1]
  · simp only [at_path, h1]
    exact store_other _ _ (Ne.symm hk)

theorem link_slot (mem : trie_t) (t : trie_t) (k : Fin TRIE_SIZE) (hk : k ≠ TRIE_SENTINEL) :
    (link mem k t).chars TRIE_SENTINEL = t.chars TRIE_SENTINEL := by
  obtain h1 | ⟨ch, h1⟩ := opt_cases (t.chars k)
  · simp only [link, h1]
    exact store_other _ _ (Ne.symm hk)
  · simp only [link, h1]

theorem at_path_slot (F : trie_t → trie_t) (t : trie_t) (cur : List (Fin TRIE_SIZE))
    (hcur : ∀ k ∈ cur, k ≠ TRIE_SENTINEL)
    (hF : cur = [] → (F t).chars TRIE_SENTINEL = t.chars TRIE_SENTINEL) :
    (at_path F t cur).chars TRIE_SENTINEL = t.chars TRIE_SENTINEL := by
  cases cur with
  | nil => exact hF rfl
  | cons k ks => exact at_path_cons_slot F t k ks (hcur k (List.mem_cons_self _ _))

/-- The loop of `trie_load` and its closing statements leave the sentinel slot of
the root as it was. -/
theorem load_loop_root_slot (mem : trie_t) :
    ∀ (content : List Nat) (s s1 : load_state), load_loop mem s content = .ret s1 →
      (∀ k ∈ s.t, k ≠ TRIE_SENTINEL) → (0 < s.word_len → s.t ≠ []) →
      (load_end mem s1).1.chars TRIE_SENTINEL = s.root.chars TRIE_SENTINEL
  | [], s, s1, h, ht, hlen => by
    simp only [load_loop, Run.ret.injEq] at h
    subst h
    unfold load_end
    split_ifs with h1
    · exact at_path_slot _ _ _ ht (fun e => absurd e h1.1)
    · rfl
  | c :: rest, s, s1, h, ht, hlen => by
    rw [load_loop] at h
    split_ifs at h with hb hl hc
    · have hne : s.t ≠ [] := hlen hl
      rw [load_loop_root_slot mem rest _ s1 h (by intro k hk; cases hk)
        (fun h0 => absurd h0 (by show ¬ (0 : Int) < 0; decide))]
      exact at_path_slot _ _ _ ht (fun e => absurd e hne)
    · exact load_loop_root_slot mem rest s s1 h ht hlen
    · have hk := idx_of_lower hc (by unfold lower at hc; show c - 96 < 30; omega)
      simp only [hk] at h
      rw [load_loop_root_slot mem rest _ s1 h
        (by
          intro k hk1
          rcases List.mem_append.1 hk1 with h1 | h1
          · exact ht k h1
          · rw [List.mem_singleton.1 h1]; exact idx_ne_sentinel hc)
        (fun _ => by simp)]
      exact at_path_slot _ _ _ ht (fun _ => link_slot mem s.root (idx c) (idx_ne_sentinel hc))

theorem trie_load_root_slot (mem t : trie_t) (content : List Nat) (r : trie_t × Int)
    (h : trie_load mem t (some content) = .ret r) :
    r.1.chars TRIE_SENTINEL = t.chars TRIE_SENTINEL := by
  simp only [trie_load] at h
  cases hl : load_loop mem ⟨t, [], 0, 0⟩ content with
  | ret s1 =>
    rw [hl] at h
    simp only [Run.ret.injEq] at h
    rw [← h]
    exact load_loop_root_slot mem content _ s1 hl (by intro k hk; cases hk)
      (fun h0 => absurd h0 (by show ¬ (0 : Int) < 0; decide))
  | abort => rw [hl] at h; cases h
  | undefined => rw [hl] at h; cases h

/-! ## Inserting a word again -/

theorem inserted_ins_self (mem : trie_t) :
    ∀ (p : List (Fin TRIE_SIZE)) (t : trie_t), inserted mem (ins mem t p) p
  | [], t => ⟨rfl, store_same t.chars TRIE_SENTINEL _⟩
  | k :: ks, t => ⟨rfl, _, store_same t.chars k _, inserted_ins_self mem ks _⟩

/-- An insertion on letter slots keeps the inserted words inserted. -/
theorem inserted_ins_mono (mem : trie_t) :
    ∀ (p : List (Fin TRIE_SIZE)) (t : trie_t) (q : List (Fin TRIE_SIZE)),
      TRIE_SENTINEL ∉ p → TRIE_SENTINEL ∉ q → inserted mem t q → inserted mem (ins mem t p) q
  | [], t, [], _, _, _ => ⟨rfl, store_same t.chars TRIE_SENTINEL _⟩
  | [], t, j :: js, _, hq, h => by
    have hj : j ≠ TRIE_SENTINEL := fun e => hq (e ▸ List.mem_cons_self _ _)
    obtain ⟨_, ch, h1, h2⟩ := h
    exact ⟨rfl, ch, (store_other _ _ hj).trans h1, h2⟩
  | k :: ks, t, [], hp, _, h => by
    have hk : TRIE_SENTINEL ≠ k := fun e => hp (e ▸ List.mem_cons_self _ _)
    exact ⟨rfl, (store_other _ _ hk).trans h.2⟩
  | k :: ks, t, j :: js, hp, hq, h => by
    have hks : TRIE_SENTINEL ∉ ks := fun m => hp (List.mem_cons_of_mem _ m)
    have hjs : TRIE_SENTINEL ∉ js := fun m => hq (List.mem_cons_of_mem _ m)
    obtain ⟨_, ch, h1, h2⟩ := h
    by_cases e : j = k
    · subst e
      refine ⟨rfl, _, store_same _ _ _, ?_⟩
      simp only [h1]
      exact inserted_ins_mono mem ks ch js hks hjs h2
    · exact ⟨rfl, ch, (store_other _ _ e).trans h1, h2⟩

/-- Inserting again an inserted word rebuilds the tree as it is. -/
theorem ins_inserted (mem : trie_t) :
    ∀ (p : List (Fin TRIE_SIZE)) (t : trie_t), inserted mem t p → ins mem t p = t
  | [], t, h => by
    cases t with
    | mk chars node =>
      obtain ⟨h1, h2⟩ := h
      simp only at h1 h2
      simp only [ins, add_end]
      rw [store_self chars _ _ h2, h1]
  | k :: ks, t, h => by
    cases t with
    | mk chars node =>
      obtain ⟨h1, ch, h2, h3⟩ := h
      simp only at h1 h2
      simp only [ins, h2, ins_inserted mem ks ch h3]
      rw [store_self chars _ _ h2, h1]

theorem inserted_ins_all_mono (mem : trie_t) :
    ∀ (ps : List (List (Fin TRIE_SIZE))) (t : trie_t) (q : List (Fin TRIE_SIZE)),
      (∀ p ∈ ps, TRIE_SENTINEL ∉ p) → TRIE_SENTINEL ∉ q → inserted mem t q →
      inserted mem (ins_all mem t ps) q
  | [], _, _, _, _, h => h
  | p :: ps, t, q, hps, hq, h =>
    inserted_ins_all_mono mem ps _ q (fun r hr => hps r (List.mem_cons_of_mem _ hr)) hq
      (inserted_ins_mono mem p t q (hps p (List.mem_cons_self _ _)) hq h)

theorem inserted_ins_all (mem : trie_t) :
    ∀ (ps : List (List (Fin TRIE_SIZE))) (t : trie_t) (q : List (Fin TRIE_SIZE)),
      (∀ p ∈ ps, TRIE_SENTINEL ∉ p) → q ∈ ps → inserted mem (ins_all mem t ps) q
  | p :: ps, t, q, hps, hq => by
    have hps1 : ∀ r ∈ ps, TRIE_SENTINEL ∉ r := fun r hr => hps r (List.mem_cons_of_mem _ hr)
    rcases List.mem_cons.1 hq with e | hmem
    · subst e
      exact inserted_ins_all_mono mem ps _ q hps1 (hps q (List.mem_cons_self _ _))
        (inserted_ins_self mem q t)
    · exact inserted_ins_all mem ps _ q hps1 hmem

/-- An inserted word has the `node` flag set on its last node. -/
theorem has_flag_inserted (mem : trie_t) :
    ∀ (p : List (Fin TRIE_SIZE)) (t : trie_t), inserted mem t p → has_flag t p = true
  | [], t, h => h.1
  | k :: ks, t, h => by
    obtain ⟨_, ch, h1, h2⟩ := h
    rw [has_flag_cons, h1]
    exact has_flag_inserted mem ks ch h2

/-! ## A file of more lines than an `int` counts -/

theorem dictionary_a_lines : ∀ n : Nat, dictionary (a_lines n)
  | 0 => by intro x hx; cases hx
  | n + 1 => by
    intro x hx
    simp only [a_lines, List.mem_cons] at hx
    rcases hx with rfl | rfl | hx
    · exact Or.inl (by decide)
    · exact Or.inr (by decide)
    · exact dictionary_a_lines n x hx

theorem wrap_int_twice (a : Int) : wrap_int (wrap_int a) = wrap_int a := by
  unfold wrap_int
  omega

/-- On the file of `n` lines `a` the loop of `trie_load` ends at the root with
`words` incremented `n` times, each time through `wrap_int`. -/
theorem load_a_lines (mem : trie_t) :
    ∀ (n : Nat) (s : load_state), s.t = [] → s.word_len = 0 → wrap_int s.words = s.words →
      ∃ s1, load_loop mem s (a_lines n) = .ret s1 ∧ s1.t = [] ∧
        s1.words = wrap_int (s.words + (n : Int))
  | 0, s, ht, _, hw => ⟨s, rfl, ht, by simpa using hw.symm⟩
  | n + 1, s, ht, hl, hw => by
    have h97 : is_break 97 = false := by decide
    have hlow : lower 97 := by decide
    have h10 : is_break 10 = true := by decide
    have hpos : (0 : Int) < wrap_int (s.word_len + 1) := by rw [hl]; decide
    obtain ⟨s1, h1, h2, h3⟩ := load_a_lines mem n
      ⟨at_path (set_sentinel mem)
          (at_path (link mem ⟨97 - TRIE_OFFSET, by decide⟩) s.root s.t)
          (s.t ++ [⟨97 - TRIE_OFFSET, by decide⟩]), [], wrap_int (s.words + 1), 0⟩
      rfl rfl (wrap_int_twice _)
    refine ⟨s1, ?_, h2, ?_⟩
    · rw [a_lines, load_loop, h97, if_neg (by decide), dif_pos hlow, load_loop, if_pos h10,
        if_pos hpos]
      exact h1
    · rw [h3]
      show wrap_int (wrap_int (s.words + 1) + (n : Int)) = wrap_int (s.words + ((n + 1 : Nat) : Int))
      rw [wrap_int_wrap]
      congr 1
      push_cast
      omega

/-- On the file of `n` lines `a`, whatever the tree and the fresh blocks,
`trie_load` returns `n` wrapped around into the range of an `int`. -/
theorem trie_load_a_lines (mem t : trie_t) (n : Nat) :
    ((trie_load mem t (some (a_lines n))).bind fun r => .ret r.2) =
      .ret (wrap_int (n : Int)) := by
  have h0 : wrap_int (0 : Int) = 0 := by decide
  obtain ⟨s1, h1, _, h3⟩ := load_a_lines mem n ⟨t, [], 0, 0⟩ rfl rfl h0
  have e : trie_load mem t (some (a_lines n)) = .ret (load_end mem s1) := by
    unfold trie_load
    simp only [h1]
  rw [e]
  show Run.ret (load_end mem s1).2 = _
  rw [load_end_snd, h3]
  show Run.ret (wrap_int (0 + (n : Int))) = _
  rw [zero_add]

/-- The count 2147483648 wraps around to -2147483648. -/
theorem wrap_int_count : wrap_int ((2147483648 : Nat) : Int) = -2147483648 := by
  decide

/-! ## What holds with zero-filled fresh blocks -/

/-- With zero-filled fresh blocks: on a fresh root filled by `trie_add` calls on
lower-case words, `trie_exists(w)` returns 0 for every lower-case word `w` that
is not one of the inserted words, a proper prefix of an inserted word
included. -/
theorem exists_zero_of_not_added (ws : List (List Nat)) (w : List Nat)
    (hws : ∀ v ∈ ws, lowercase v) (hw : lowercase w) (hnot : w ∉ ws) :
    ((add_all zeroed (trie_init zeroed) ws).bind fun t => trie_exists t w) = .ret 0 := by
  have hq := sentinel_not_mem_path_of hw
  have hps : ∀ p ∈ ws.map path_of, TRIE_SENTINEL ∉ p := by
    intro p hp
    obtain ⟨v, hv, e⟩ := List.mem_map.1 hp
    exact e ▸ sentinel_not_mem_path_of (hws v hv)
  have h := has_end_ins_all (ws.map path_of) (trie_init zeroed) (path_of w) hps hq
  rw [has_end_zeroed, path_of_mem hws hw] at h
  have hf : has_end (ins_all zeroed (trie_init zeroed) (ws.map path_of)) (path_of w) = false := by
    cases hb : has_end (ins_all zeroed (trie_init zeroed) (ws.map path_of)) (path_of w) with
    | false => rfl
    | true => exact absurd (h.1 hb) (by simpa using hnot)
  simp only [add_all_lower zeroed ws _ hws, Run.bind, trie_exists_lower w _ hw, hf]
  rfl

/-- With zero-filled fresh blocks: on a fresh root filled by `trie_add` calls on
lower-case words, `trie_prefix(p)` returns 1 when some inserted word starts with
`p` (the word `p` itself included) and 0 otherwise. -/
theorem prefix_iff_starts_inserted (ws : List (List Nat)) (p : List Nat)
    (hws : ∀ v ∈ ws, lowercase v) (hp : lowercase p) :
    ((add_all zeroed (trie_init zeroed) ws).bind fun t => trie_prefix t p)
      = .ret (if ∃ w ∈ ws, p <+: w then 1 else 0) ∧
    (p ∈ ws → ((add_all zeroed (trie_init zeroed) ws).bind fun t => trie_prefix t p) = .ret 1) ∧
    trie_prefix (trie_init zeroed) [] = .ret 0 := by
  have hq := sentinel_not_mem_path_of hp
  have hps : ∀ p ∈ ws.map path_of, TRIE_SENTINEL ∉ p := by
    intro p hp
    obtain ⟨v, hv, e⟩ := List.mem_map.1 hp
    exact e ▸ sentinel_not_mem_path_of (hws v hv)
  have h := has_flag_ins_all (ws.map path_of) (trie_init zeroed) (path_of p) hps hq
  rw [has_flag_zeroed] at h
  have h2 : has_flag (ins_all zeroed (trie_init zeroed) (ws.map path_of)) (path_of p) = true ↔
      ∃ w ∈ ws, p <+: w := by
    rw [h]
    constructor
    · rintro (h0 | ⟨q, hq1, hq2⟩)
      · exact absurd h0 (by simp)
      · obtain ⟨v, hv, e⟩ := List.mem_map.1 hq1
        exact ⟨v, hv, (prefix_path_of p v hp (hws v hv)).1 (e ▸ hq2)⟩
    · rintro ⟨v, hv, hpv⟩
      exact Or.inr ⟨path_of v, List.mem_map.2 ⟨v, hv, rfl⟩,
        (prefix_path_of p v hp (hws v hv)).2 hpv⟩
  have main : ((add_all zeroed (trie_init zeroed) ws).bind fun t => trie_prefix t p)
      = .ret (if ∃ w ∈ ws, p <+: w then 1 else 0) := by
    simp only [add_all_lower zeroed ws _ hws, Run.bind, trie_prefix_lower p _ hp]
    by_cases hex : ∃ w ∈ ws, p <+: w
    · rw [if_pos hex, h2.2 hex]; rfl
    · rw [if_neg hex]
      cases hb : has_flag (ins_all zeroed (trie_init zeroed) (ws.map path_of)) (path_of p) with
      | false => rfl
      | true => exact absurd (h2.1 hb) hex
  refine ⟨main, fun hin => ?_, rfl⟩
  rw [main, if_pos ⟨p, hin, List.prefix_refl p⟩]

/-- With zero-filled fresh blocks: after `trie_load` of a dictionary shorter than
`INT_MAX` bytes onto a fresh root, `trie_exists(w)` returns 1 when the lower-case
word `w` is one of the non-empty lines of the content, the last line counting as
one whether or not a line break follows it, and 0 otherwise. -/
theorem exists_after_load (content w : List Nat) (hd : dictionary content)
    (hlen : content.length < 2147483648) (hw : lowercase w) :
    ((trie_load zeroed (trie_init zeroed) (some content)).bind fun r => trie_exists r.1 w)
      = .ret (if w ∈ lines content then 1 else 0) := by
  obtain ⟨r, hr, hE, _⟩ := trie_load_sound content hd hlen
  simp only [hr, Run.bind, trie_exists_lower w _ hw]
  by_cases h : w ∈ lines content
  · rw [if_pos h, (hE w hw).2 h]; rfl
  · rw [if_neg h]
    cases hb : has_end r.1 (path_of w) with
    | false => rfl
    | true => exact absurd ((hE w hw).1 hb) h

/-- With zero-filled fresh blocks: after `trie_load` of a dictionary shorter than
`INT_MAX` bytes onto a fresh root, `trie_prefix(p)` returns 1 when some line of
the content starts with the lower-case string `p` and is strictly longer than
`p`, and 0 otherwise. -/
theorem prefix_after_load (content p : List Nat) (hd : dictionary content)
    (hlen : content.length < 2147483648) (hp : lowercase p) :
    ((trie_load zeroed (trie_init zeroed) (some content)).bind fun r => trie_prefix r.1 p)
      = .ret (if ∃ v ∈ lines content, p <+: v ∧ p.length < v.length then 1 else 0) := by
  obtain ⟨r, hr, _, hF⟩ := trie_load_sound content hd hlen
  simp only [hr, Run.bind, trie_prefix_lower p _ hp]
  by_cases h : ∃ v ∈ lines content, p <+: v ∧ p.length < v.length
  · rw [if_pos h, (hF p hp).2 h]; rfl
  · rw [if_neg h]
    cases hb : has_flag r.1 (path_of p) with
    | false => rfl
    | true => exact absurd ((hF p hp).1 hb) h

/-- With zero-filled fresh blocks: every trie reached from a fresh root by
`trie_add` calls on lower-case words and `trie_load` calls on dictionaries
satisfies the sentinel invariant, and each such call keeps the invariant on any
trie that satisfies it. -/
theorem sentinel_invariant (ops : List trie_op) (hops : ∀ o ∈ ops, lower_op o)
    (t : trie_t) (ht : sentinel_inv t = true) (o : trie_op) (ho : lower_op o) :
    (∃ t1, run_ops zeroed (trie_init zeroed) ops = .ret t1 ∧ sentinel_inv t1 = true) ∧
    (∃ t1, run_ops zeroed t [o] = .ret t1 ∧ sentinel_inv t1 = true) :=
  ⟨run_ops_inv ops _ hops (all_nodes_zeroed _ sentinel_local_fresh),
    run_ops_inv [o] t (by simpa using ho) ht⟩

/-! ## Claims -/

/-- C1: whatever the insertions made before, on a root from `trie_init`, right
after `trie_add(w)` the call `trie_exists(w)` returns 1, and it still returns 1
after any further insertions; all words are lower-case. This holds for every
content `mem` of the fresh blocks that a `trie_t` value can stand for (each child
pointer `NULL` or the address of a node). -/
theorem exists_after_add (mem : trie_t) (ws ws2 : List (List Nat)) (w : List Nat)
    (hws : ∀ v ∈ ws, lowercase v) (hw : lowercase w) (hws2 : ∀ v ∈ ws2, lowercase v) :
    ((add_all mem (trie_init mem) ws).bind fun t0 =>
      (trie_add mem t0 w).bind fun t1 => trie_exists t1 w) = .ret 1 ∧
    ((add_all mem (trie_init mem) ws).bind fun t0 =>
      (trie_add mem t0 w).bind fun t1 =>
        (add_all mem t1 ws2).bind fun t2 => trie_exists t2 w) = .ret 1 := by
  have hq := sentinel_not_mem_path_of hw
  simp only [add_all_lower mem ws _ hws, trie_add_lower mem w _ hw, add_all_lower mem ws2 _ hws2,
    Run.bind, trie_exists_lower w _ hw]
  rw [has_end_ins_all_mono mem _ _ _ hq (has_end_ins_self mem _ _), has_end_ins_self]
  exact ⟨rfl, rfl⟩

/-- Instance of C1: `car`, then `cat`, then `dog`, asking for `cat`. -/
theorem exists_after_add_witness :
    ((∀ v ∈ [str "car"], lowercase v) ∧ lowercase (str "cat") ∧
      ∀ v ∈ [str "dog"], lowercase v) ∧
    ((add_all zeroed (trie_init zeroed) [str "car"]).bind fun t0 =>
      (trie_add zeroed t0 (str "cat")).bind fun t1 => trie_exists t1 (str "cat")) = .ret 1 ∧
    ((add_all zeroed (trie_init zeroed) [str "car"]).bind fun t0 =>
      (trie_add zeroed t0 (str "cat")).bind fun t1 =>
        (add_all zeroed t1 [str "dog"]).bind fun t2 => trie_exists t2 (str "cat")) = .ret 1 :=
  ⟨⟨by decide, by decide, by decide⟩,
    exists_after_add zeroed [str "car"] [str "dog"] (str "cat") (by decide) (by decide)
      (by decide)⟩

/-- C2, the code at the failing input: with fresh blocks in which `chars[0]` is
not `NULL`, after `trie_add` of `cat` and `car` on a fresh root
`trie_exists("ca")` returns 1, although `ca` is not an inserted word; with
zero-filled blocks it returns 0. -/
theorem exists_one_on_dirty_blocks :
    str "ca" ∉ [str "cat", str "car"] ∧
    ((add_all dirty_first (trie_init dirty_first) [str "cat", str "car"]).bind
      fun t => trie_exists t (str "ca")) = .ret 1 ∧
    ((add_all zeroed (trie_init zeroed) [str "cat", str "car"]).bind
      fun t => trie_exists t (str "ca")) = .ret 0 := by
  refine ⟨?_, ?_, ?_⟩ <;> decide

/-- C3, the code at the failing input: after `trie_add("cat")` alone on a fresh
root, whatever the fresh blocks hold, `trie_prefix("cat")` returns 1 although no
inserted word has characters beyond `cat`; after `trie_load` of the one-line
file `cat` it returns 0. -/
theorem prefix_of_leaf_word_is_one :
    (∀ mem : trie_t, ((add_all mem (trie_init mem) [str "cat"]).bind
      fun t => trie_prefix t (str "cat")) = .ret 1) ∧
    (¬ ∃ w ∈ [str "cat"], str "cat" <+: w ∧ (str "cat").length < w.length) ∧
    ((trie_load zeroed (trie_init zeroed) (some (str "cat\n"))).bind
      fun r => trie_prefix r.1 (str "cat")) = .ret 0 := by
  refine ⟨fun mem => ?_, by decide, by decide⟩
  have hl : lowercase (str "cat") := by decide
  have hws : ∀ v ∈ [str "cat"], lowercase v := by decide
  have hin : inserted mem (ins_all mem (trie_init mem) ([str "cat"].map path_of))
      (path_of (str "cat")) :=
    inserted_ins_all mem _ _ _
      (fun p hp => by
        obtain ⟨v, hv, e⟩ := List.mem_map.1 hp
        exact e ▸ sentinel_not_mem_path_of (hws v hv))
      (List.mem_map.2 ⟨_, List.mem_cons_self _ _, rfl⟩)
  rw [add_all_lower mem _ _ hws]
  show trie_prefix _ (str "cat") = _
  rw [trie_prefix_lower _ _ hl, has_flag_inserted mem _ _ hin]
  rfl

/-- C4, the code at the failing input: on `cat`, `car`, `dog` with no line break
after `dog`, `trie_load` returns 2, although it has inserted all three words of
the content; with the closing line break it returns 3. -/
theorem load_count_without_final_break :
    ((trie_load zeroed (trie_init zeroed) (some (str "cat\ncar\ndog"))).bind
      fun r => .ret r.2) = .ret 2 ∧
    lines (str "cat\ncar\ndog") = [str "cat", str "car", str "dog"] ∧
    ((trie_load zeroed (trie_init zeroed) (some (str "cat\ncar\ndog"))).bind
      fun r => trie_exists r.1 (str "dog")) = .ret 1 ∧
    ((trie_load zeroed (trie_init zeroed) (some (str "cat\ncar\ndog\n"))).bind
      fun r => .ret r.2) = .ret 3 := by
  refine ⟨?_, ?_, ?_, ?_⟩ <;> decide

/-- C5, the code at the failing input: with fresh blocks in which `chars[0]` is
not `NULL`, after `trie_load` of `cat`, `car`, `dog` onto a fresh root
`trie_exists("ca")` returns 1, although `ca` is not a line of the content; with
zero-filled blocks it returns 0. -/
theorem exists_one_after_load_on_dirty_blocks :
    str "ca" ∉ lines (str "cat\ncar\ndog") ∧
    ((trie_load dirty_first (trie_init dirty_first) (some (str "cat\ncar\ndog"))).bind
      fun r => trie_exists r.1 (str "ca")) = .ret 1 ∧
    ((trie_load zeroed (trie_init zeroed) (some (str "cat\ncar\ndog"))).bind
      fun r => trie_exists r.1 (str "ca")) = .ret 0 := by
  refine ⟨?_, ?_, ?_⟩ <;> decide

/-- C6, the code at the failing input: with fresh blocks that still hold the
pointers of a released node, after `trie_load` of the one-line file `cat` onto
a fresh root `trie_prefix("d")` returns 1, although no line starts with `d`;
with zero-filled blocks it returns 0. -/
theorem prefix_one_after_load_on_dirty_blocks :
    (¬ ∃ v ∈ lines (str "cat\n"), str "d" <+: v ∧ (str "d").length < v.length) ∧
    ((trie_load dirty_all (trie_init dirty_all) (some (str "cat\n"))).bind
      fun r => trie_prefix r.1 (str "d")) = .ret 1 ∧
    ((trie_load zeroed (trie_init zeroed) (some (str "cat\n"))).bind
      fun r => trie_prefix r.1 (str "d")) = .ret 0 := by
  refine ⟨?_, ?_, ?_⟩ <;> decide

/-- C7 fails as stated: the file of 2147483648 lines `a` is a dictionary and can
be opened, and `trie_load` of it onto a fresh root returns -2147483648: the
counter `words` wraps around at its last increment. -/
theorem load_returns_negative :
    dictionary (a_lines 2147483648) ∧
    ((trie_load zeroed (trie_init zeroed) (some (a_lines 2147483648))).bind
      fun r => .ret r.2) = .ret (-2147483648) :=
  ⟨dictionary_a_lines 2147483648,
    (trie_load_a_lines zeroed (trie_init zeroed) 2147483648).trans
      (congrArg Run.ret wrap_int_count)⟩

/-- C7 as amended: when the source cannot be opened `trie_load` returns -1 and
the tree is the one it was given; when it can be opened and holds fewer than
2147483648 line breaks, a value that `trie_load` returns is never negative, and
on a dictionary it does return one. -/
theorem load_unavailable (mem t : trie_t) (content : List Nat)
    (hlt : (content.filter is_break).length < 2147483648) :
    trie_load mem t none = .ret (t, -1) ∧
    (∀ r, trie_load mem t (some content) = .ret r → 0 ≤ r.2) ∧
    (dictionary content → ∃ r, trie_load mem t (some content) = .ret r ∧ 0 ≤ r.2) := by
  have key : ∀ r, trie_load mem t (some content) = .ret r → 0 ≤ r.2 := by
    intro r hr
    simp only [trie_load] at hr
    cases hl : load_loop mem ⟨t, [], 0, 0⟩ content with
    | ret s1 =>
      rw [hl] at hr
      simp only [Run.ret.injEq] at hr
      rw [← hr, load_end_snd]
      refine load_loop_words mem content _ s1 hl (le_refl _) ?_
      show (0 : Int) + ((content.filter is_break).length : Int) < 2147483648
      omega
    | abort => rw [hl] at hr; cases hr
    | undefined => rw [hl] at hr; cases hr
  refine ⟨rfl, key, fun hd => ?_⟩
  obtain ⟨s1, hs1⟩ := load_loop_returns mem content ⟨t, [], 0, 0⟩ hd
  have hr : trie_load mem t (some content) = .ret (load_end mem s1) := by
    simp only [trie_load, hs1]
  exact ⟨_, hr, key _ hr⟩

/-- Instance of the amended C7: a source that cannot be opened, and the one-line
source `cat`. -/
theorem load_unavailable_witness :
    (dictionary (str "cat\n") ∧ ((str "cat\n").filter is_break).length < 2147483648) ∧
    trie_load zeroed (trie_init zeroed) none = .ret (trie_init zeroed, -1) ∧
    ∃ r, trie_load zeroed (trie_init zeroed) (some (str "cat\n")) = .ret r ∧ 0 ≤ r.2 :=
  ⟨⟨by decide, by decide⟩,
    (load_unavailable zeroed (trie_init zeroed) (str "cat\n") (by decide)).1,
    (load_unavailable zeroed (trie_init zeroed) (str "cat\n") (by decide)).2.2 (by decide)⟩

/-- C12, the code at the failing input: on the one-letter text `A` (byte 65)
`trie_strip` computes the index `65 - 96`, which is no slot of `chars`; so does
it on `Hello the` with the trie of `the`. -/
theorem strip_index_out_of_range :
    slot 65 = none ∧
    trie_strip (trie_init zeroed) (str "A") = .undefined ∧
    ((add_all zeroed (trie_init zeroed) [str "the"]).bind
      fun t => trie_strip t (str "Hello the")) = .undefined := by
  refine ⟨?_, ?_, ?_⟩ <;> decide

/-- C13, the code at the failing input: on the byte 96 `trie_exists` and
`trie_prefix` follow the sentinel slot and return 0, after `trie_add("a")` also
from the node of `a`; on the byte 123 they look into slot 27 and return 0; on
the byte 65 they index outside the array. None of these runs is stopped. -/
theorem search_does_not_stop :
    slot 96 = some TRIE_SENTINEL ∧
    trie_exists (trie_init zeroed) [96] = .ret 0 ∧
    trie_prefix (trie_init zeroed) [96] = .ret 0 ∧
    ((trie_add zeroed (trie_init zeroed) (str "a")).bind
      fun t => trie_exists t [97, 96]) = .ret 0 ∧
    ((trie_add zeroed (trie_init zeroed) (str "a")).bind
      fun t => trie_prefix t [97, 96]) = .ret 0 ∧
    trie_exists (trie_init zeroed) [123] = .ret 0 ∧
    trie_prefix (trie_init zeroed) [123] = .ret 0 ∧
    trie_exists (trie_init zeroed) [65] = .undefined ∧
    trie_prefix (trie_init zeroed) [65] = .undefined := by
  refine ⟨?_, ?_, ?_, ?_, ?_, ?_, ?_, ?_, ?_⟩ <;> decide

/-- C14, the code at the failing input: `trie_add("a")` twice on a fresh root
makes 4 calls of `trie_init` in all, the root included, and `trie_free` then
releases 3 nodes; after one `trie_add("a")` both numbers are 3. -/
theorem second_add_leaks_sentinel :
    ((trie_add zeroed (trie_init zeroed) (str "a")).bind fun t1 =>
      (trie_add zeroed t1 (str "a")).bind fun t2 =>
        .ret (1 + add_inits zeroed (trie_init zeroed) (str "a") + add_inits zeroed t1 (str "a"),
          trie_free t2)) = .ret (4, 3) ∧
    ((trie_add zeroed (trie_init zeroed) (str "a")).bind fun t1 =>
      .ret (1 + add_inits zeroed (trie_init zeroed) (str "a"), trie_free t1)) = .ret (3, 3) := by
  refine ⟨?_, ?_⟩ <;> decide

/-- C15, the code at the failing input: on a block whose child slots hold
non-zero bytes, the node `trie_init` returns has `node` cleared and its child
slots as the block held them; in general `trie_init` leaves `chars` as it
finds it. -/
theorem init_keeps_block_contents :
    (trie_init ⟨fun _ => some zeroed, true⟩).node = false ∧
    ((trie_init ⟨fun _ => some zeroed, true⟩).chars TRIE_SENTINEL).isSome = true ∧
    ∀ mem : trie_t, (trie_init mem).chars = mem.chars :=
  ⟨rfl, rfl, fun _ => rfl⟩

/-- C16: for dictionaries `pre` and `post`, a line break `b` and a non-empty
run `bs` of line breaks, `trie_load` returns the same tree and the same count
on `pre ++ bs ++ post` as on `pre ++ [b] ++ post`, and the same on
`bs ++ post` as on `post`; `trie_load` leaves the sentinel slot of the root as
it finds it, and after `trie_load` of a dictionary onto a fresh root
`trie_exists("")` returns 0. -/
theorem load_ignores_blank_lines (mem t : trie_t) (pre post bs : List Nat) (b : Nat)
    (hpre : dictionary pre) (hpost : dictionary post) (hb : is_break b = true)
    (hbs : ∀ x ∈ bs, is_break x = true) (hne : bs ≠ []) :
    (∃ r, trie_load mem t (some (pre ++ bs ++ post)) = .ret r ∧
      trie_load mem t (some (pre ++ [b] ++ post)) = .ret r) ∧
    (∃ r, trie_load mem t (some (bs ++ post)) = .ret r ∧
      trie_load mem t (some post) = .ret r) ∧
    (∃ r, trie_load mem t (some post) = .ret r ∧
      r.1.chars TRIE_SENTINEL = t.chars TRIE_SENTINEL) ∧
    ((trie_load zeroed (trie_init zeroed) (some post)).bind fun r => trie_exists r.1 [])
      = .ret 0 := by
  refine ⟨?_, ?_, ?_, ?_⟩
  · obtain ⟨r, hr⟩ := trie_load_returns mem t (pre ++ [b] ++ post)
      (dictionary_append (dictionary_append hpre (dictionary_breaks (by simpa using hb))) hpost)
    refine ⟨r, ?_, hr⟩
    rw [← hr]
    cases bs with
    | nil => exact absurd rfl hne
    | cons c cs =>
      have hc : is_break c = true := hbs c (List.mem_cons_self _ _)
      have hcs : ∀ x ∈ cs, is_break x = true := fun x hx => hbs x (List.mem_cons_of_mem _ hx)
      simp only [trie_load, List.append_assoc, load_loop_append mem pre]
      congr 2
      funext s1
      rw [List.singleton_append, load_loop_break_swap mem b c post s1 hb hc]
      exact load_loop_break_run mem c cs post s1 hc hcs
  · obtain ⟨r, hr⟩ := trie_load_returns mem t post hpost
    refine ⟨r, ?_, hr⟩
    rw [← hr]
    simp only [trie_load]
    rw [load_loop_breaks mem bs post _ hbs (by show ¬ (0 : Int) < 0; decide)]
  · obtain ⟨r, hr⟩ := trie_load_returns mem t post hpost
    exact ⟨r, hr, trie_load_root_slot mem t post r hr⟩
  · obtain ⟨r, hr⟩ := trie_load_returns zeroed (trie_init zeroed) post hpost
    have hs := trie_load_root_slot zeroed (trie_init zeroed) post r hr
    simp only [hr, Run.bind, trie_exists, hs]
    rfl

/-- Instance of C16: `cat`, `car`, `dog` with one line break after `cat`, with
three, and with two more at the start. -/
theorem load_ignores_blank_lines_witness :
    (dictionary (str "cat") ∧ dictionary (str "car\ndog") ∧ is_break 10 = true ∧
      (∀ x ∈ str "\n\r\n", is_break x = true) ∧ str "\n\r\n" ≠ []) ∧
    (∃ r, trie_load zeroed (trie_init zeroed) (some (str "cat" ++ str "\n\r\n" ++ str "car\ndog"))
        = .ret r ∧
      trie_load zeroed (trie_init zeroed) (some (str "cat" ++ [10] ++ str "car\ndog")) = .ret r) ∧
    (∃ r, trie_load zeroed (trie_init zeroed) (some (str "\n\r\n" ++ str "car\ndog")) = .ret r ∧
      trie_load zeroed (trie_init zeroed) (some (str "car\ndog")) = .ret r) ∧
    (∃ r, trie_load zeroed (trie_init zeroed) (some (str "car\ndog")) = .ret r ∧
      r.1.chars TRIE_SENTINEL = (trie_init zeroed).chars TRIE_SENTINEL) ∧
    ((trie_load zeroed (trie_init zeroed) (some (str "car\ndog"))).bind
      fun r => trie_exists r.1 []) = .ret 0 :=
  ⟨⟨by decide, by decide, by decide, by decide, by decide⟩,
    load_ignores_blank_lines zeroed (trie_init zeroed) (str "cat") (str "car\ndog") (str "\n\r\n")
      10 (by decide) (by decide) (by decide) (by decide) (by decide)⟩

/-- C17, the code at the failing input: after `trie_load` of the one-line file
`a` onto a fresh root the node of `a` has its `node` flag cleared
(`trie_prefix("a")` returns 0), and after `trie_add("a")` on a fresh root the
flag is set (`trie_prefix("a")` returns 1). -/
theorem load_differs_from_add :
    lines (str "a\n") = [str "a"] ∧
    ((trie_load zeroed (trie_init zeroed) (some (str "a\n"))).bind
      fun r => trie_prefix r.1 (str "a")) = .ret 0 ∧
    ((add_all zeroed (trie_init zeroed) (lines (str "a\n"))).bind
      fun t => trie_prefix t (str "a")) = .ret 1 := by
  refine ⟨?_, ?_, ?_⟩ <;> decide

/-- C19, the code at the failing input: with fresh blocks in which `chars[27]`
is not `NULL`, or in which `chars[0]` is not `NULL`, the trie that
`trie_add("cat")` leaves on a fresh root does not satisfy the sentinel
invariant; with zero-filled blocks it does. -/
theorem sentinel_inv_fails_on_dirty_blocks :
    ((trie_add dirty_unused (trie_init dirty_unused) (str "cat")).bind
      fun t => .ret (sentinel_inv t)) = .ret false ∧
    ((trie_add dirty_first (trie_init dirty_first) (str "cat")).bind
      fun t => .ret (sentinel_inv t)) = .ret false ∧
    ((trie_add zeroed (trie_init zeroed) (str "cat")).bind
      fun t => .ret (sentinel_inv t)) = .ret true := by
  refine ⟨?_, ?_, ?_⟩ <;> decide

end Trie
